import Mathlib

/-!
# Formal model of the wmcc-core mempool (src/mempool/mempool.js)

A shallow embedding of the mempool engine. JavaScript numbers that the code
uses as integers are modelled as `Int`/`Nat`; JS `Map`s are modelled as
association lists in insertion order (JS `Map.set` keeps the position of an
existing key and appends fresh keys; iteration follows insertion order and
skips keys deleted during the iteration). External collaborators (chain,
worker pool, locker, random source) are oracles carried by an `Env` record.
Thrown JS exceptions are modelled with an explicit `Res` result type; a
stateful operation returns the (possibly partially mutated) state together
with its result, exactly as a caught JS exception observes partial mutation.
-/

namespace WMCC

/-- Transaction hashes (hex strings in the source) are modelled as naturals. -/
abbrev Hash := Nat

/-- An outpoint `{prev-tx-hash, output-index}`. `Outpoint.toKey` in the source
produces an injective 36-byte key; we key the spent map by the pair itself. -/
structure Outpoint where
  hash : Hash
  index : Nat
deriving DecidableEq

/-- A transaction input: previous outpoint plus sequence number. -/
structure Input where
  prevout : Outpoint
  sequence : Nat
deriving DecidableEq

/-- A transaction. `primitives/tx.js` is not part of the sources, so the
derived attributes the mempool consults (`checkSanity`, `isCoinbase`,
`hasWitness`, `getWeight`, `isRBF`, fee, sizes, script-standardness of
inputs/witness, `isFree`) are carried as oracle fields, faithful to the call
sites in `mempool.js`. -/
structure TX where
  hash : Hash
  inputs : List Input
  outputsLen : Nat
  version : Nat
  size : Nat
  vsize : Int
  weight : Nat
  witness : Bool
  coinbase : Bool
  mutable : Bool
  rbf : Bool
  sigopsCost : Nat
  fee : Int
  isFree : Int → Bool
  checkSanity : Int → Bool × String × Nat
  checkStandard : Bool × String × Nat
  checkInputs : Int → Int × String × Nat
  hasStandardInputs : Bool
  hasStandardWitness : Bool

/-- A mempool entry (`mempoolentry.js` is not in the sources).
Modelled from the spec: a `MempoolEntry` wraps a TX with insertion time,
entry height, individual fee and size, sigops cost, priority, the
descendant-updated `descFee`/`descSize`, and a `deltaFee` for manual
adjustments. -/
structure Entry where
  tx : TX
  height : Int
  size : Int
  sigops : Nat
  priority : Int
  fee : Int
  deltaFee : Int
  descFee : Int
  descSize : Int
  time : Nat

/-- Modelled from the spec: `MempoolEntry.memUsage()` (mempoolentry.js is not
in the sources) — the memory footprint of an entry, a function of the size of
its transaction plus fixed bookkeeping overhead. -/
def Entry.memUsage (e : Entry) : Int := (e.tx.size : Int) + 160

/-- `useDesc(a)` — whether the comparator uses the descendant-package view of
entry `a`: `a.descFee * a.size > a.deltaFee * a.descSize`. -/
def useDesc (a : Entry) : Bool :=
  let x := a.deltaFee * a.descSize
  let y := a.descFee * a.size
  decide (y > x)

/-- `cmpRate(a, b)` — the eviction-heap comparator: cross-multiplied fee-rate
comparison of the chosen (direct or package) views, ties broken by `time`. -/
def cmpRate (a b : Entry) : Int :=
  let xf := a.deltaFee
  let xs := a.size
  let yf := b.deltaFee
  let ys := b.size
  let xf := if useDesc a then a.descFee else xf
  let xs := if useDesc a then a.descSize else xs
  let yf := if useDesc b then b.descFee else yf
  let ys := if useDesc b then b.descSize else ys
  let x := xf * ys
  let y := xs * yf
  if x = y then (a.time : Int) - (b.time : Int) else x - y

/-- The direct fee rate of an entry, `deltaFee / size`, as a rational. -/
def directRate (a : Entry) : ℚ := (a.deltaFee : ℚ) / (a.size : ℚ)

/-- The descendant-package fee rate of an entry, `descFee / descSize`. -/
def descRate (a : Entry) : ℚ := (a.descFee : ℚ) / (a.descSize : ℚ)

/-- The lesser of the two rates of an entry (the ordering key the spec
ascribes to `cmp_rate`). -/
def pkgMinRate (a : Entry) : ℚ := min (directRate a) (descRate a)

/-- The greater of the two rates of an entry (the ordering key `cmp_rate`
actually uses). -/
def pkgMaxRate (a : Entry) : ℚ := max (directRate a) (descRate a)

/-- The fee component selected by `cmpRate` for an entry. -/
def selFee (a : Entry) : Int := if useDesc a then a.descFee else a.deltaFee

/-- The size component selected by `cmpRate` for an entry. -/
def selSize (a : Entry) : Int := if useDesc a then a.descSize else a.size

lemma cmpRate_eq (a b : Entry) :
    cmpRate a b =
      if selFee a * selSize b = selSize a * selFee b then (a.time : Int) - (b.time : Int)
      else selFee a * selSize b - selSize a * selFee b := rfl

lemma selSize_pos (a : Entry) (h1 : 0 < a.size) (h2 : 0 < a.descSize) :
    0 < selSize a := by
  unfold selSize; split <;> assumption

/-- The selected rate of an entry equals the greater of its two rates. -/
lemma sel_rate_eq_max (a : Entry) (h1 : 0 < a.size) (h2 : 0 < a.descSize) :
    (selFee a : ℚ) / (selSize a : ℚ) = pkgMaxRate a := by
  have h1q : (0 : ℚ) < (a.size : ℚ) := by exact_mod_cast h1
  have h2q : (0 : ℚ) < (a.descSize : ℚ) := by exact_mod_cast h2
  by_cases h : useDesc a
  · have hp : a.deltaFee * a.descSize < a.descFee * a.size := by
      simpa [useDesc] using h
    have hgt : directRate a < descRate a := by
      rw [directRate, descRate, div_lt_div_iff₀ h1q h2q]
      exact_mod_cast hp
    rw [pkgMaxRate, max_eq_right hgt.le]
    simp only [selFee, selSize, h, if_true]
    rfl
  · have hp : ¬ a.deltaFee * a.descSize < a.descFee * a.size := by
      simpa [useDesc] using h
    have hle : descRate a ≤ directRate a := by
      rw [directRate, descRate, div_le_div_iff₀ h2q h1q]
      exact_mod_cast by omega
    rw [pkgMaxRate, max_eq_left hle]
    simp only [selFee, selSize, h, if_false]
    rfl

lemma cross_lt_iff (a b : Entry) (ha : 0 < a.size) (ha2 : 0 < a.descSize)
    (hb : 0 < b.size) (hb2 : 0 < b.descSize) :
    (selFee a * selSize b < selSize a * selFee b) ↔ pkgMaxRate a < pkgMaxRate b := by
  have hsa := selSize_pos a ha ha2
  have hsb := selSize_pos b hb hb2
  have hsaq : (0 : ℚ) < (selSize a : ℚ) := by exact_mod_cast hsa
  have hsbq : (0 : ℚ) < (selSize b : ℚ) := by exact_mod_cast hsb
  rw [← sel_rate_eq_max a ha ha2, ← sel_rate_eq_max b hb hb2,
    div_lt_div_iff₀ hsaq hsbq]
  constructor
  · intro h
    have h' : ((selFee a * selSize b : Int) : ℚ) < ((selSize a * selFee b : Int) : ℚ) := by
      exact_mod_cast h
    push_cast at h'
    linarith
  · intro h
    have h' : ((selFee a * selSize b : Int) : ℚ) < ((selSize a * selFee b : Int) : ℚ) := by
      push_cast
      linarith
    exact_mod_cast h'

lemma cross_eq_iff (a b : Entry) (ha : 0 < a.size) (ha2 : 0 < a.descSize)
    (hb : 0 < b.size) (hb2 : 0 < b.descSize) :
    (selFee a * selSize b = selSize a * selFee b) ↔ pkgMaxRate a = pkgMaxRate b := by
  have hsa := selSize_pos a ha ha2
  have hsb := selSize_pos b hb hb2
  have hsaq : (0 : ℚ) < (selSize a : ℚ) := by exact_mod_cast hsa
  have hsbq : (0 : ℚ) < (selSize b : ℚ) := by exact_mod_cast hsb
  rw [← sel_rate_eq_max a ha ha2, ← sel_rate_eq_max b hb hb2,
    div_eq_div_iff (ne_of_gt hsaq) (ne_of_gt hsbq)]
  constructor
  · intro h
    have h' : ((selFee a * selSize b : Int) : ℚ) = ((selSize a * selFee b : Int) : ℚ) := by
      exact_mod_cast h
    push_cast at h'
    linarith
  · intro h
    have h' : ((selFee a * selSize b : Int) : ℚ) = ((selSize a * selFee b : Int) : ℚ) := by
      push_cast
      linarith
    exact_mod_cast h'

/-- C3 (amended): `cmpRate` orders two entries by the GREATER of the direct
rate `deltaFee/size` and the descendant-package rate `descFee/descSize`
(the package view is chosen for an entry exactly when
`descFee * size > deltaFee * descSize`, i.e. when the package rate exceeds
the direct rate), with equal rates ordered by older insertion time first. -/
theorem cmpRate_orders_by_max_rate (a b : Entry)
    (ha : 0 < a.size) (ha2 : 0 < a.descSize) (hb : 0 < b.size) (hb2 : 0 < b.descSize) :
    (cmpRate a b < 0 ↔
      (pkgMaxRate a < pkgMaxRate b ∨ (pkgMaxRate a = pkgMaxRate b ∧ a.time < b.time))) := by
  rw [cmpRate_eq]
  by_cases he : selFee a * selSize b = selSize a * selFee b
  · rw [if_pos he]
    have hrate := (cross_eq_iff a b ha ha2 hb hb2).mp he
    constructor
    · intro h
      right
      exact ⟨hrate, by omega⟩
    · rintro (h | ⟨_, h⟩)
      · exact absurd hrate (ne_of_lt h)
      · omega
  · rw [if_neg he]
    have hne : pkgMaxRate a ≠ pkgMaxRate b := fun h =>
      he ((cross_eq_iff a b ha ha2 hb hb2).mpr h)
    constructor
    · intro h
      left
      exact (cross_lt_iff a b ha ha2 hb hb2).mp (by omega)
    · rintro (h | ⟨h, _⟩)
      · have := (cross_lt_iff a b ha ha2 hb hb2).mpr h
        omega
      · exact absurd h hne

/-- A fixed dummy transaction used to build concrete entries in examples. -/
def TX0 : TX where
  hash := 0
  inputs := []
  outputsLen := 1
  version := 1
  size := 100
  vsize := 100
  weight := 400
  witness := false
  coinbase := false
  mutable := false
  rbf := false
  sigopsCost := 1
  fee := 1
  isFree := fun _ => false
  checkSanity := fun _ => (true, "", 0)
  checkStandard := (true, "", 0)
  checkInputs := fun _ => (1, "", 0)
  hasStandardInputs := true
  hasStandardWitness := true

/-- Entry with direct rate 1 but package rate 10 (package view selected). -/
def ceA : Entry where
  tx := TX0
  height := 0
  size := 1
  sigops := 1
  priority := 0
  fee := 1
  deltaFee := 1
  descFee := 10
  descSize := 1
  time := 0

/-- Entry with direct rate 2 and package rate 2. -/
def ceB : Entry where
  tx := TX0
  height := 0
  size := 1
  sigops := 1
  priority := 0
  fee := 2
  deltaFee := 2
  descFee := 2
  descSize := 1
  time := 0

/-- C3 (counterexample): ordering by the LESSER of the two rates would place
`ceA` (lesser rate 1) strictly before `ceB` (lesser rate 2), yet
`cmpRate ceA ceB = 8 > 0`, i.e. the comparator places `ceA` strictly after
`ceB`: the comparator does not order by the lesser rate. -/
theorem cmpRate_not_min_rate :
    0 < ceA.size ∧ 0 < ceA.descSize ∧ 0 < ceB.size ∧ 0 < ceB.descSize ∧
    ceA.time = ceB.time ∧ pkgMinRate ceA < pkgMinRate ceB ∧ ¬ cmpRate ceA ceB < 0 := by
  refine ⟨by decide, by decide, by decide, by decide, rfl, ?_, by decide⟩
  show min ((1 : ℚ) / 1) ((10 : ℚ) / 1) < min ((2 : ℚ) / 1) ((2 : ℚ) / 1)
  norm_num

/-- C3 (witness): the amended characterisation applied to the two concrete
entries above: `ceB` has the greater maximal rate, and indeed
`cmpRate ceB ceA < 0`. -/
theorem cmpRate_orders_by_max_rate_witness :
    0 < ceB.size ∧ cmpRate ceB ceA < 0 := by
  constructor
  · decide
  · rw [cmpRate_orders_by_max_rate ceB ceA (by decide) (by decide) (by decide) (by decide)]
    left
    show max ((2:ℚ)/1) ((2:ℚ)/1) < max ((1:ℚ)/1) ((10:ℚ)/1)
    norm_num

/-! ## JS Map model

Association lists in insertion order. `Map.set` keeps the position of an
existing key and appends fresh keys at the end; `Map.delete` removes the key;
iteration follows list order. -/

/-- JS `Map.get`. -/
def mget {κ α : Type} [DecidableEq κ] : List (κ × α) → κ → Option α
  | [], _ => none
  | (k, v) :: rest, key => if k = key then some v else mget rest key

/-- JS `Map.set`: overwrite an existing key in place, append a fresh key. -/
def mset {κ α : Type} [DecidableEq κ] : List (κ × α) → κ → α → List (κ × α)
  | [], key, v => [(key, v)]
  | (k, w) :: rest, key, v =>
    if k = key then (k, v) :: rest else (k, w) :: mset rest key v

/-- JS `Map.delete`. -/
def mdel {κ α : Type} [DecidableEq κ] : List (κ × α) → κ → List (κ × α)
  | [], _ => []
  | (k, w) :: rest, key =>
    if k = key then mdel rest key else (k, w) :: mdel rest key

/-- In-place mutation of the object stored at a key (the source mutates the
stored `MempoolEntry` objects through shared references). -/
def mupd {κ α : Type} [DecidableEq κ] : List (κ × α) → κ → (α → α) → List (κ × α)
  | [], _, _ => []
  | (k, v) :: rest, key, f =>
    if k = key then (k, f v) :: mupd rest key f
    else (k, v) :: mupd rest key f

/-! ## Errors, events, results -/

/-- The `type`-like codes a `VerifyError` carries (called `type` by the spec;
the constructor argument `code` in `protocol/errors.js`). -/
inductive ErrCode where
  | invalid
  | nonstandard
  | alreadyknown
  | duplicate
  | insufficientfee
  | highfee
deriving DecidableEq

/-- The exceptions the modelled code can throw: `VerifyError`s (whose
constructor receives the offending tx, a code, a reason and a score, and tags
the object with `type = "VerifyError"`), assertion failures, and exhaustion
of the recursion fuel of the model (unreachable for large enough fuel). -/
inductive Err where
  | verify (txh : Hash) (code : ErrCode) (reason : String) (score : Nat) (malleated : Bool)
  | assert (msg : String)
  | fuel
deriving DecidableEq

/-- The JS test `err.type === "VerifyError"`. -/
def Err.isVerifyError : Err → Bool
  | .verify _ _ _ _ _ => true
  | _ => false

/-- Reading `err.malleated`: `undefined` (falsy) unless the error set it. -/
def Err.isMalleated : Err → Bool
  | .verify _ _ _ _ m => m
  | _ => false

/-- The JS assignment `err.malleated = true`. -/
def Err.setMalleated : Err → Err
  | .verify h c r s _ => .verify h c r s true
  | e => e

/-- Result of a call: normal return or a thrown exception. -/
inductive Res (α : Type) where
  | ok (a : α)
  | thrown (e : Err)
deriving DecidableEq

/-- Observable events emitted by the mempool, identified by the hash of the
transaction or entry they carry. -/
inductive Ev where
  | tx (h : Hash)
  | addEntry (h : Hash)
  | removeEntry (h : Hash)
  | confirmed (h : Hash)
  | conflict (h : Hash)
  | addOrphan (h : Hash)
  | removeOrphan (h : Hash)
  | badOrphan (e : Err) (id : Int)
  | error (e : Err)
  | unconfirmed (h : Hash)
  | doubleSpend (h : Hash)
deriving DecidableEq

/-- An orphan: the transaction (stored serialized in the source — `corrupt`
marks raw bytes that would fail deserialization in `toTX`), the count of
still-missing parents, and the origin peer id. -/
structure Orphan where
  tx : TX
  missing : Nat
  id : Int
  corrupt : Bool

/-- `Orphan.toTX` — deserialize the stored raw transaction. -/
def Orphan.toTX (o : Orphan) : Option TX :=
  if o.corrupt then none else some o.tx

/-! ## Mempool state and environment -/

/-- The mutable state of the mempool. `spents` stores the hash of the
spender entry; in the source it stores the entry object itself, which is the
same object as `map[hash]`, so lookups resolve through `map` (`getSpent`).
`rejects` models the `RollingFilter` (utils/rollingfilter.js is not in the
sources) as an exact set of hashes. -/
structure St where
  map : List (Hash × Entry)
  spents : List (Outpoint × Hash)
  orphans : List (Hash × Orphan)
  waiting : List (Hash × List Hash)
  rejects : List Hash
  size : Int
  tip : Hash
  freeCount : ℚ
  lastTime : Nat
  lastFlush : Nat
  events : List Ev

/-- The mempool options consulted by the modelled functions. -/
structure Options where
  maxSize : Int
  expiryTime : Nat
  maxOrphans : Nat
  maxAncestors : Nat
  requireStandard : Bool
  prematureWitness : Bool
  replaceByFee : Bool
  relayPriority : Bool
  limitFree : Bool
  limitFreeRelay : Nat
  rejectAbsurdFees : Bool
  minRelay : Nat
  paranoidChecks : Bool

/-- Modelled from the spec: the script verification flag sets of `script.js`
(not in the sources). Only the flag groups the mempool toggles are
distinguished: `VERIFY_WITNESS`, `VERIFY_CLEANSTACK`, the remaining
standard-only flags, and the mandatory flags. -/
structure VFlags where
  witness : Bool
  cleanstack : Bool
  standardOnlyRest : Bool
  mandatory : Bool
deriving DecidableEq

/-- `Script.flags.STANDARD_VERIFY_FLAGS`. -/
def STANDARD_VERIFY_FLAGS : VFlags := ⟨true, true, true, true⟩

/-- `Script.flags.MANDATORY_VERIFY_FLAGS`. -/
def MANDATORY_VERIFY_FLAGS : VFlags := ⟨false, false, false, true⟩

/-- The JS test `flags & Script.flags.ONLY_STANDARD_VERIFY_FLAGS` (nonzero). -/
def VFlags.hasOnlyStandard (f : VFlags) : Bool :=
  f.witness || f.cleanstack || f.standardOnlyRest

/-- The JS mask `flags &= ~Script.flags.ONLY_STANDARD_VERIFY_FLAGS`. -/
def VFlags.dropOnlyStandard (f : VFlags) : VFlags :=
  { f with witness := false, cleanstack := false, standardOnlyRest := false }

/-- The external collaborators of the mempool: chain queries, the worker
pool, the locker, the clock and the random source, plus the options. -/
structure Env where
  opts : Options
  now : Nat
  chainHeight : Int
  chainTipHash : Hash
  hasCSV : Bool
  chainHasWitness : Bool
  synced : Bool
  verifyFinal : TX → Bool
  hasCoins : TX → Bool
  readCoin : Outpoint → Bool
  verifyLocks : TX → Bool
  verifyAsync : TX → VFlags → Bool
  lockerPending : Hash → Bool
  randomRange : Nat → Nat → Nat

/-- Append an emitted event (events are recorded in program order). -/
def pushEv (s : St) (e : Ev) : St := { s with events := s.events ++ [e] }

/-- `hasEntry(hash)`. -/
def hasEntry (s : St) (h : Hash) : Bool := (mget s.map h).isSome

/-- `getEntry(hash)`. -/
def getEntry (s : St) (h : Hash) : Option Entry := mget s.map h

/-- `getTX(hash)`. -/
def getTX (s : St) (h : Hash) : Option TX := (mget s.map h).map Entry.tx

/-- `isSpent(hash, index)`. -/
def isSpent (s : St) (h : Hash) (i : Nat) : Bool := (mget s.spents ⟨h, i⟩).isSome

/-- `getSpent(hash, index)` — the entry spending the given output. -/
def getSpent (s : St) (h : Hash) (i : Nat) : Option Entry :=
  (mget s.spents ⟨h, i⟩).bind (mget s.map)

/-- `hasOrphan(hash)`. -/
def hasOrphan (s : St) (h : Hash) : Bool := (mget s.orphans h).isSome

/-- `getOrphan(hash)`. -/
def getOrphan (s : St) (h : Hash) : Option Orphan := mget s.orphans h

/-- `hasReject(hash)` — membership in the reject filter. -/
def hasReject (s : St) (h : Hash) : Bool := decide (h ∈ s.rejects)

/-- `rejects.add(hash)` — the filter modelled as an exact set. -/
def rejectsAdd (s : St) (h : Hash) : St :=
  if h ∈ s.rejects then s else { s with rejects := s.rejects ++ [h] }

/-- `exists(hash)` — pending in the locker, an orphan, or in the pool. -/
def existsTX (env : Env) (s : St) (h : Hash) : Bool :=
  env.lockerPending h || hasOrphan s h || hasEntry s h

/-- `hasDepends(tx)` — some input spends an in-pool transaction. -/
def hasDepends (s : St) (tx : TX) : Bool :=
  tx.inputs.any fun i => hasEntry s i.prevout.hash

/-- `isDoubleSpend(tx)` — some input outpoint is already in the spent map. -/
def isDoubleSpend (s : St) (tx : TX) : Bool :=
  tx.inputs.any fun i => isSpent s i.prevout.hash i.prevout.index

/-- The spent-map updates of `trackEntry`: `spents.set(prevout.toKey(), entry)`
for each input. -/
def trackSpents (hash : Hash) : List Input → List (Outpoint × Hash) → List (Outpoint × Hash)
  | [], sp => sp
  | inp :: rest, sp => trackSpents hash rest (mset sp inp.prevout hash)

/-- The spent-map updates of `untrackEntry`: `spents.delete(prevout.toKey())`
for each input. -/
def untrackSpents : List Input → List (Outpoint × Hash) → List (Outpoint × Hash)
  | [], sp => sp
  | inp :: rest, sp => untrackSpents rest (mdel sp inp.prevout)

/-- `trackEntry` — map the entry, record its spent outpoints, add its memory
usage to `size`. The `assert`s of the source are modelled as thrown assertion
failures occurring after exactly the mutations performed up to that point.
The optional address-index branch (`options.indexAddress`) is not modelled;
no claim concerns the secondary indices. -/
def trackEntryF (s : St) (e : Entry) : St × Res Unit :=
  let hash := e.tx.hash
  if hasEntry s hash then (s, .thrown (.assert "trackEntry: map.has(hash)"))
  else
    let s1 := { s with map := mset s.map hash e }
    if e.tx.coinbase then (s1, .thrown (.assert "trackEntry: tx.isCoinbase()"))
    else
      let s2 := { s1 with spents := trackSpents hash e.tx.inputs s1.spents }
      ({ s2 with size := s2.size + e.memUsage }, .ok ())

/-- `untrackEntry` — unmap the entry, drop its spent outpoints, subtract its
memory usage from `size`. -/
def untrackEntryF (s : St) (e : Entry) : St × Res Unit :=
  let hash := e.tx.hash
  if ¬ hasEntry s hash then (s, .thrown (.assert "untrackEntry: map.has(hash)"))
  else
    let s1 := { s with map := mdel s.map hash }
    if e.tx.coinbase then (s1, .thrown (.assert "untrackEntry: tx.isCoinbase()"))
    else
      let s2 := { s1 with spents := untrackSpents e.tx.inputs s1.spents }
      ({ s2 with size := s2.size - e.memUsage }, .ok ())

/-- `_reset` — empty every structure and point the tip at the chain tip.
The fee estimator and the on-disk cache are external collaborators and are
not modelled. -/
def resetF (env : Env) (s : St) : St :=
  { s with
    map := []
    spents := []
    orphans := []
    waiting := []
    rejects := []
    size := 0
    freeCount := 0
    lastTime := 0
    tip := env.chainTipHash }

/-- The freshly constructed mempool state. -/
def St.initial (tip : Hash) : St :=
  { map := []
    spents := []
    orphans := []
    waiting := []
    rejects := []
    size := 0
    tip := tip
    freeCount := 0
    lastTime := 0
    lastFlush := 0
    events := [] }

/-! ## C2 — size consistency -/

/-- The sum of `entry.memUsage()` over the pool map. -/
def sumMemUsage (m : List (Hash × Entry)) : Int :=
  (m.map fun p => p.2.memUsage).sum

/-- States reachable from a fresh mempool by admissions (`trackEntry`),
removals (`untrackEntry`, as called by `removeEntry`/`evictEntry`; their
argument is the very object stored in the pool map, captured by the
`mget ... = some e` premise), and `reset`. -/
inductive Reachable (env : Env) : St → Prop where
  | init (tip : Hash) : Reachable env (St.initial tip)
  | track {s s' : St} {e : Entry} : Reachable env s →
      trackEntryF s e = (s', .ok ()) → Reachable env s'
  | untrack {s s' : St} {e : Entry} : Reachable env s →
      mget s.map e.tx.hash = some e →
      untrackEntryF s e = (s', .ok ()) → Reachable env s'
  | reset {s : St} : Reachable env s → Reachable env (resetF env s)

lemma mget_none_iff_not_keys {κ α : Type} [DecidableEq κ] (m : List (κ × α)) (k : κ) :
    mget m k = none ↔ k ∉ m.map Prod.fst := by
  induction m with
  | nil => simp [mget]
  | cons p rest ih =>
    obtain ⟨k', v⟩ := p
    by_cases h : k' = k
    · subst h
      simp [mget]
    · rw [show mget ((k', v) :: rest) k = mget rest k from by simp [mget, h]]
      rw [ih]
      simp only [List.map_cons, List.mem_cons]
      constructor
      · intro hn hmem
        rcases hmem with h1 | h2
        · exact h h1.symm
        · exact hn h2
      · intro hn h2
        exact hn (Or.inr h2)

lemma mset_eq_append {κ α : Type} [DecidableEq κ] (m : List (κ × α)) (k : κ) (v : α)
    (h : mget m k = none) : mset m k v = m ++ [(k, v)] := by
  induction m with
  | nil => simp [mset]
  | cons p rest ih =>
    obtain ⟨k', w⟩ := p
    by_cases hk : k' = k
    · simp [mget, hk] at h
    · simp [mget, hk] at h
      simp [mset, hk, ih h]

lemma mdel_sublist {κ α : Type} [DecidableEq κ] (m : List (κ × α)) (k : κ) :
    (mdel m k).Sublist m := by
  induction m with
  | nil => simp [mdel]
  | cons p rest ih =>
    obtain ⟨k', w⟩ := p
    by_cases hk : k' = k
    · simp only [mdel, if_pos hk]
      exact ih.trans (List.sublist_cons_self _ _)
    · simp only [mdel, if_neg hk]
      exact ih.cons₂ _

lemma mdel_of_not_mem {κ α : Type} [DecidableEq κ] (m : List (κ × α)) (k : κ)
    (h : mget m k = none) : mdel m k = m := by
  induction m with
  | nil => simp [mdel]
  | cons p rest ih =>
    obtain ⟨k', w⟩ := p
    by_cases hk : k' = k
    · simp [mget, hk] at h
    · simp [mget, hk] at h
      simp [mdel, hk, ih h]

lemma sumMemUsage_mdel (m : List (Hash × Entry)) (k : Hash) (e : Entry)
    (hnd : (m.map Prod.fst).Nodup) (h : mget m k = some e) :
    sumMemUsage (mdel m k) = sumMemUsage m - e.memUsage := by
  induction m with
  | nil => simp [mget] at h
  | cons p rest ih =>
    obtain ⟨k', w⟩ := p
    simp only [List.map_cons, List.nodup_cons] at hnd
    by_cases hk : k' = k
    · subst hk
      have hw : w = e := by simpa [mget] using h
      subst hw
      have hrest : mget rest k' = none := (mget_none_iff_not_keys rest k').mpr hnd.1
      have h1 : mdel ((k', w) :: rest) k' = rest := by
        simp [mdel, mdel_of_not_mem rest k' hrest]
      rw [h1]
      simp only [sumMemUsage, List.map_cons, List.sum_cons]
      omega
    · have h2 : mget rest k = some e := by simpa [mget, hk] using h
      have h3 : mdel ((k', w) :: rest) k = (k', w) :: mdel rest k := by
        simp [mdel, hk]
      rw [h3]
      simp only [sumMemUsage, List.map_cons, List.sum_cons]
      have := ih hnd.2 h2
      simp only [sumMemUsage] at this
      omega

/-- The successful branch of `trackEntry`, flattened. -/
lemma trackEntryF_ok (s : St) (e : Entry) (hin : hasEntry s e.tx.hash = false)
    (hcb : e.tx.coinbase = false) :
    trackEntryF s e =
      ({ s with
          map := mset s.map e.tx.hash e
          spents := trackSpents e.tx.hash e.tx.inputs s.spents
          size := s.size + e.memUsage }, .ok ()) := by
  simp [trackEntryF, hin, hcb]

/-- The successful branch of `untrackEntry`, flattened. -/
lemma untrackEntryF_ok (s : St) (e : Entry) (hin : hasEntry s e.tx.hash = true)
    (hcb : e.tx.coinbase = false) :
    untrackEntryF s e =
      ({ s with
          map := mdel s.map e.tx.hash
          spents := untrackSpents e.tx.inputs s.spents
          size := s.size - e.memUsage }, .ok ()) := by
  simp [untrackEntryF, hin, hcb]

/-- A successful `trackEntry` implies the two assertion guards held. -/
lemma trackEntryF_ok_guards {s s' : St} {e : Entry}
    (h : trackEntryF s e = (s', .ok ())) :
    hasEntry s e.tx.hash = false ∧ e.tx.coinbase = false := by
  cases hin : hasEntry s e.tx.hash with
  | true => simp [trackEntryF, hin] at h
  | false =>
    cases hcb : e.tx.coinbase with
    | true => simp [trackEntryF, hin, hcb] at h
    | false => exact ⟨rfl, rfl⟩

/-- A successful `untrackEntry` implies the two assertion guards held. -/
lemma untrackEntryF_ok_guards {s s' : St} {e : Entry}
    (h : untrackEntryF s e = (s', .ok ())) :
    hasEntry s e.tx.hash = true ∧ e.tx.coinbase = false := by
  cases hin : hasEntry s e.tx.hash with
  | false => simp [untrackEntryF, hin] at h
  | true =>
    cases hcb : e.tx.coinbase with
    | true => simp [untrackEntryF, hin, hcb] at h
    | false => exact ⟨rfl, rfl⟩

lemma reachable_invariant (env : Env) {s : St} (h : Reachable env s) :
    (s.map.map Prod.fst).Nodup ∧ s.size = sumMemUsage s.map := by
  induction h with
  | init tip => simp [St.initial, sumMemUsage]
  | track hr htrack ih =>
    rename_i s s' e
    obtain ⟨hin, hcb⟩ := trackEntryF_ok_guards htrack
    rw [trackEntryF_ok s e hin hcb] at htrack
    have hs' := congrArg Prod.fst htrack
    simp only at hs'
    have hnone : mget s.map e.tx.hash = none := by
      unfold hasEntry at hin
      cases hmg : mget s.map e.tx.hash with
      | none => rfl
      | some _ => rw [hmg] at hin; simp at hin
    have happ := mset_eq_append s.map e.tx.hash e hnone
    constructor
    · rw [← hs']
      simp only [happ, List.map_append]
      rw [List.nodup_append]
      refine ⟨ih.1, by simp, ?_⟩
      intro hx hxmem hy
      simp only [List.map_cons, List.map_nil, List.mem_singleton] at hy
      exact (mget_none_iff_not_keys s.map e.tx.hash).mp hnone (hy ▸ hxmem)
    · rw [← hs']
      simp only [happ, sumMemUsage, List.map_append, List.sum_append,
        List.map_cons, List.map_nil, List.sum_cons, List.sum_nil]
      have := ih.2
      simp only [sumMemUsage] at this
      omega
  | untrack hr hmem huntrack ih =>
    rename_i s s' e
    have hin : hasEntry s e.tx.hash = true := by
      unfold hasEntry
      rw [hmem]
      rfl
    obtain ⟨-, hcb⟩ := untrackEntryF_ok_guards huntrack
    rw [untrackEntryF_ok s e hin hcb] at huntrack
    have hs' := congrArg Prod.fst huntrack
    simp only at hs'
    constructor
    · rw [← hs']
      exact ih.1.sublist ((mdel_sublist s.map e.tx.hash).map _)
    · rw [← hs']
      simp only
      rw [sumMemUsage_mdel s.map e.tx.hash e ih.1 hmem, ih.2]
  | reset hr ih =>
    constructor
    · simp [resetF]
    · simp [resetF, sumMemUsage]

/-- C2: in every state reachable by any sequence of admissions (trackEntry),
removals (untrackEntry via removeEntry/evictEntry), and reset, the field
`size` equals the sum of `entry.memUsage()` over all entries in the pool map. -/
theorem size_consistency (env : Env) (s : St) (h : Reachable env s) :
    s.size = sumMemUsage s.map :=
  (reachable_invariant env h).2

/-- Baseline options used by the concrete examples. -/
def Options0 : Options where
  maxSize := 1000000
  expiryTime := 100
  maxOrphans := 10
  maxAncestors := 25
  requireStandard := false
  prematureWitness := false
  replaceByFee := false
  relayPriority := false
  limitFree := false
  limitFreeRelay := 0
  rejectAbsurdFees := false
  minRelay := 0
  paranoidChecks := false

/-- Baseline environment used by the concrete examples: a chain at height 5
that answers every query positively and has no pending locks. -/
def env0 : Env where
  opts := Options0
  now := 50
  chainHeight := 5
  chainTipHash := 99
  hasCSV := true
  chainHasWitness := true
  synced := true
  verifyFinal := fun _ => true
  hasCoins := fun _ => false
  readCoin := fun _ => true
  verifyLocks := fun _ => true
  verifyAsync := fun _ _ => true
  lockerPending := fun _ => false
  randomRange := fun lo _ => lo

/-- The state reached by tracking one concrete entry into a fresh mempool. -/
def st1 : St := (trackEntryF (St.initial 5) ceA).1

/-- C2 (witness): the invariant evaluated on a concrete reachable state. -/
theorem size_consistency_witness :
    st1.size = sumMemUsage st1.map := by
  have h : trackEntryF (St.initial 5) ceA = (st1, Res.ok ()) := rfl
  exact size_consistency env0 st1 (Reachable.track (Reachable.init 5) h)

/-! ## Ancestor traversal (`_countAncestors`, `updateAncestors`) -/

/-- `nop(parent, child)`. -/
def nop (parent _child : Entry) : Entry := parent

/-- `addFee(parent, child)`: `parent.descFee += child.deltaFee;
parent.descSize += child.size`. -/
def addFee (parent child : Entry) : Entry :=
  { parent with
    descFee := parent.descFee + child.deltaFee
    descSize := parent.descSize + child.size }

/-- `removeFee(parent, child)`: `parent.descFee -= child.descFee;
parent.descSize -= child.descSize`. -/
def removeFee (parent child : Entry) : Entry :=
  { parent with
    descFee := parent.descFee - child.descFee
    descSize := parent.descSize - child.descSize }

/-- `prePrioritise(parent, child)`: `parent.descFee -= child.deltaFee`. -/
def prePrioritise (parent child : Entry) : Entry :=
  { parent with descFee := parent.descFee - child.deltaFee }

/-- `postPrioritise(parent, child)`: `parent.descFee += child.deltaFee`. -/
def postPrioritise (parent child : Entry) : Entry :=
  { parent with descFee := parent.descFee + child.deltaFee }

/-- The loop body of `_countAncestors(entry, set, child, map)`: for each
input, look up the in-pool parent, skip absent or already-visited parents,
otherwise mark the parent visited, apply the callback (`upd` is
`map(·, child)` with the originating child already applied — the source
mutates the parent object in place, so the pool map is threaded through),
stop (`break`) once the visited set exceeds `maxAncestors`, and recurse into
the parent through `descend`, which `ancGo` instantiates with the walk one
recursion level down. -/
def ancLoop (maxA : Nat) (upd : Entry → Entry)
    (descend : List Input → Finset Hash → List (Hash × Entry) →
      Finset Hash × List (Hash × Entry)) :
    List Input → Finset Hash → List (Hash × Entry) →
      Finset Hash × List (Hash × Entry)
  | [], set, m => (set, m)
  | inp :: rest, set, m =>
    match mget m inp.prevout.hash with
    | none => ancLoop maxA upd descend rest set m
    | some parent =>
      if inp.prevout.hash ∈ set then ancLoop maxA upd descend rest set m
      else
        let set1 := insert inp.prevout.hash set
        let m1 := mupd m inp.prevout.hash upd
        if maxA < set1.card then (set1, m1)
        else
          let r := descend parent.tx.inputs set1 m1
          if maxA < r.1.card then r
          else ancLoop maxA upd descend rest r.1 r.2

/-- `_countAncestors`, fuelled by recursion depth. Every descent first
inserts a fresh hash into the visited set and only proceeds while
`set.card ≤ maxA`, so the nesting depth is at most `maxA`; a top-level call
with `fuel = maxA + 1` therefore never reaches the fuel-exhausted
degenerate descend (`ancGo_complete` makes this precise). -/
def ancGo (maxA : Nat) (upd : Entry → Entry) :
    Nat → List Input → Finset Hash → List (Hash × Entry) →
      Finset Hash × List (Hash × Entry)
  | 0 => ancLoop maxA upd (fun _ set1 m1 => (set1, m1))
  | fuel + 1 => ancLoop maxA upd (ancGo maxA upd fuel)

/-- `countAncestors(entry)` = `_countAncestors(entry, new Set(), entry, nop)`,
returning `set.size`. -/
def countAncestorsF (maxA : Nat) (s : St) (e : Entry) : Nat :=
  (ancGo maxA (fun p => nop p e) (maxA + 1) e.tx.inputs ∅ s.map).1.card

/-- `updateAncestors(entry, map)` = `_countAncestors(entry, new Set(), entry, map)`;
only the mutation of the pool map is observable. -/
def updateAncestorsF (maxA : Nat) (s : St) (e : Entry)
    (f : Entry → Entry → Entry) : St :=
  { s with map := (ancGo maxA (fun p => f p e) (maxA + 1) e.tx.inputs ∅ s.map).2 }

lemma mget_mupd {κ α : Type} [DecidableEq κ] (m : List (κ × α)) (k : κ) (f : α → α)
    (h : κ) :
    mget (mupd m k f) h = if h = k then (mget m h).map f else mget m h := by
  induction m with
  | nil => simp [mupd, mget]
  | cons p rest ih =>
    obtain ⟨k1, v⟩ := p
    by_cases hk : k1 = k
    · subst hk
      by_cases hh : k1 = h
      · subst hh
        simp [mupd, mget]
      · simp only [mupd, if_pos rfl, mget, if_neg hh]
        exact ih
    · by_cases hh : k1 = h
      · subst hh
        simp only [mupd, if_neg hk, mget, if_pos rfl]
        simp
      · simp only [mupd, if_neg hk, mget, if_neg hh]
        exact ih

lemma mupd_id {κ α : Type} [DecidableEq κ] (m : List (κ × α)) (k : κ)
    {f : α → α} (hf : ∀ a, f a = a) : mupd m k f = m := by
  induction m with
  | nil => rfl
  | cons p rest ih =>
    obtain ⟨k1, v⟩ := p
    by_cases hk : k1 = k
    · simp only [mupd, if_pos hk, hf v, ih]
    · simp only [mupd, if_neg hk, ih]

lemma ancLoop_nil (maxA : Nat) (upd : Entry → Entry) (descend) (set : Finset Hash)
    (m : List (Hash × Entry)) :
    ancLoop maxA upd descend [] set m = (set, m) := rfl

lemma ancLoop_cons_none (maxA : Nat) (upd : Entry → Entry) (descend)
    {inp : Input} (rest : List Input) (set : Finset Hash)
    {m : List (Hash × Entry)} (hmg : mget m inp.prevout.hash = none) :
    ancLoop maxA upd descend (inp :: rest) set m =
      ancLoop maxA upd descend rest set m := by
  rw [ancLoop, hmg]

lemma ancLoop_cons_mem (maxA : Nat) (upd : Entry → Entry) (descend)
    {inp : Input} (rest : List Input) {set : Finset Hash}
    {m : List (Hash × Entry)} {parent : Entry}
    (hmg : mget m inp.prevout.hash = some parent)
    (hmem : inp.prevout.hash ∈ set) :
    ancLoop maxA upd descend (inp :: rest) set m =
      ancLoop maxA upd descend rest set m := by
  rw [ancLoop, hmg]
  simp [hmem]

lemma ancLoop_cons_break (maxA : Nat) (upd : Entry → Entry) (descend)
    {inp : Input} (rest : List Input) {set : Finset Hash}
    {m : List (Hash × Entry)} {parent : Entry}
    (hmg : mget m inp.prevout.hash = some parent)
    (hmem : inp.prevout.hash ∉ set)
    (hbreak : maxA < (insert inp.prevout.hash set).card) :
    ancLoop maxA upd descend (inp :: rest) set m =
      (insert inp.prevout.hash set, mupd m inp.prevout.hash upd) := by
  rw [ancLoop, hmg]
  simp only [if_neg hmem, if_pos hbreak]

lemma ancLoop_cons_desc (maxA : Nat) (upd : Entry → Entry) (descend)
    {inp : Input} (rest : List Input) {set : Finset Hash}
    {m : List (Hash × Entry)} {parent : Entry}
    (hmg : mget m inp.prevout.hash = some parent)
    (hmem : inp.prevout.hash ∉ set)
    (hok : ¬ maxA < (insert inp.prevout.hash set).card) :
    ancLoop maxA upd descend (inp :: rest) set m =
      (let r := descend parent.tx.inputs (insert inp.prevout.hash set)
        (mupd m inp.prevout.hash upd)
       if maxA < r.1.card then r
       else ancLoop maxA upd descend rest r.1 r.2) := by
  rw [ancLoop, hmg]
  simp only [if_neg hmem, if_neg hok]

/-- The visited set only grows along the loop. -/
lemma ancLoop_subset (maxA : Nat) (upd : Entry → Entry) (descend)
    (hd : ∀ i st mm, st ⊆ (descend i st mm).1) :
    ∀ (inputs : List Input) (set : Finset Hash) (m : List (Hash × Entry)),
      set ⊆ (ancLoop maxA upd descend inputs set m).1 := by
  intro inputs
  induction inputs with
  | nil =>
    intro set m
    rw [ancLoop_nil]
  | cons inp rest ihl =>
    intro set m
    cases hmg : mget m inp.prevout.hash with
    | none =>
      rw [ancLoop_cons_none maxA upd descend rest set hmg]
      exact ihl set m
    | some parent =>
      by_cases hmem : inp.prevout.hash ∈ set
      · rw [ancLoop_cons_mem maxA upd descend rest hmg hmem]
        exact ihl set m
      · by_cases hbr : maxA < (insert inp.prevout.hash set).card
        · rw [ancLoop_cons_break maxA upd descend rest hmg hmem hbr]
          exact Finset.subset_insert _ _
        · rw [ancLoop_cons_desc maxA upd descend rest hmg hmem hbr]
          have hinner := hd parent.tx.inputs (insert inp.prevout.hash set)
            (mupd m inp.prevout.hash upd)
          by_cases hbr2 : maxA <
              ((descend parent.tx.inputs (insert inp.prevout.hash set)
                (mupd m inp.prevout.hash upd)).1).card
          · simp only [if_pos hbr2]
            exact (Finset.subset_insert _ _).trans hinner
          · simp only [if_neg hbr2]
            exact ((Finset.subset_insert _ _).trans hinner).trans (ihl _ _)

/-- The visited set only grows along the walk. -/
lemma ancGo_subset (maxA : Nat) (upd : Entry → Entry) :
    ∀ (fuel : Nat) (inputs : List Input) (set : Finset Hash)
      (m : List (Hash × Entry)), set ⊆ (ancGo maxA upd fuel inputs set m).1 := by
  intro fuel
  induction fuel with
  | zero =>
    rw [ancGo]
    exact ancLoop_subset maxA upd _ (fun i st mm => Finset.Subset.refl st)
  | succ f ihf =>
    rw [ancGo]
    exact ancLoop_subset maxA upd _ ihf

/-- With an identity callback the loop leaves the map untouched. -/
lemma ancLoop_id_map (maxA : Nat) (upd : Entry → Entry) (hf : ∀ p, upd p = p)
    (descend) (hd : ∀ i st mm, (descend i st mm).2 = mm) :
    ∀ (inputs : List Input) (set : Finset Hash) (m : List (Hash × Entry)),
      (ancLoop maxA upd descend inputs set m).2 = m := by
  intro inputs
  induction inputs with
  | nil =>
    intro set m
    rw [ancLoop_nil]
  | cons inp rest ihl =>
    intro set m
    cases hmg : mget m inp.prevout.hash with
    | none =>
      rw [ancLoop_cons_none maxA upd descend rest set hmg]
      exact ihl set m
    | some parent =>
      by_cases hmem : inp.prevout.hash ∈ set
      · rw [ancLoop_cons_mem maxA upd descend rest hmg hmem]
        exact ihl set m
      · by_cases hbr : maxA < (insert inp.prevout.hash set).card
        · rw [ancLoop_cons_break maxA upd descend rest hmg hmem hbr]
          exact mupd_id m _ hf
        · rw [ancLoop_cons_desc maxA upd descend rest hmg hmem hbr]
          rw [mupd_id m inp.prevout.hash hf]
          have hinner := hd parent.tx.inputs (insert inp.prevout.hash set) m
          by_cases hbr2 : maxA <
              ((descend parent.tx.inputs (insert inp.prevout.hash set) m).1).card
          · simp only [if_pos hbr2]
            exact hinner
          · simp only [if_neg hbr2]
            rw [hinner]
            exact ihl _ _

/-- With an identity callback the walk leaves the map untouched
(`countAncestors` is pure). -/
lemma ancGo_id_map (maxA : Nat) (upd : Entry → Entry) (hf : ∀ p, upd p = p) :
    ∀ (fuel : Nat) (inputs : List Input) (set : Finset Hash)
      (m : List (Hash × Entry)), (ancGo maxA upd fuel inputs set m).2 = m := by
  intro fuel
  induction fuel with
  | zero =>
    rw [ancGo]
    exact ancLoop_id_map maxA upd hf _ (fun i st mm => rfl)
  | succ f ihf =>
    rw [ancGo]
    exact ancLoop_id_map maxA upd hf _ ihf

/-- Two pool maps with the same keys and the same transaction per key (the
entry bookkeeping fields such as `descFee` may differ). The walk reads a map
only through key presence and `tx.inputs`, so related maps walk identically. -/
def skel (m m' : List (Hash × Entry)) : Prop :=
  ∀ h, (mget m h).map Entry.tx = (mget m' h).map Entry.tx

lemma skel_refl (m : List (Hash × Entry)) : skel m m := fun _ => rfl

lemma skel_none {m m' : List (Hash × Entry)} (hs : skel m m') {h : Hash}
    (hn : mget m h = none) : mget m' h = none := by
  have hh := hs h
  rw [hn] at hh
  cases hm : mget m' h with
  | none => rfl
  | some p => rw [hm] at hh; simp at hh

lemma skel_some {m m' : List (Hash × Entry)} (hs : skel m m') {h : Hash} {p : Entry}
    (hp : mget m h = some p) :
    ∃ p', mget m' h = some p' ∧ p'.tx = p.tx := by
  have hh := hs h
  rw [hp] at hh
  cases hm : mget m' h with
  | none => rw [hm] at hh; simp at hh
  | some q =>
    rw [hm] at hh
    simp at hh
    exact ⟨q, rfl, hh.symm⟩

lemma skel_mupd {m m' : List (Hash × Entry)} (hs : skel m m') (k : Hash)
    {u u' : Entry → Entry} (hu : ∀ p, (u p).tx = p.tx) (hu' : ∀ p, (u' p).tx = p.tx) :
    skel (mupd m k u) (mupd m' k u') := by
  intro x
  rw [mget_mupd, mget_mupd]
  by_cases hx : x = k
  · simp only [if_pos hx]
    have h1 : ((mget m x).map u).map Entry.tx = (mget m x).map Entry.tx := by
      cases mget m x with
      | none => rfl
      | some p => simp [hu]
    have h2 : ((mget m' x).map u').map Entry.tx = (mget m' x).map Entry.tx := by
      cases mget m' x with
      | none => rfl
      | some p => simp [hu']
    rw [h1, h2]
    exact hs x
  · simp only [if_neg hx]
    exact hs x

/-- Runs of the loop over skeleton-related maps with tx-preserving callbacks
visit exactly the same hashes. -/
lemma ancLoop_congr (maxA : Nat) {u u' : Entry → Entry}
    (hu : ∀ p, (u p).tx = p.tx) (hu' : ∀ p, (u' p).tx = p.tx)
    (dL dR : List Input → Finset Hash → List (Hash × Entry) →
      Finset Hash × List (Hash × Entry))
    (hd : ∀ i st mL mR, skel mL mR →
      (dL i st mL).1 = (dR i st mR).1 ∧ skel (dL i st mL).2 (dR i st mR).2) :
    ∀ (inputs : List Input) (set : Finset Hash) (mL mR : List (Hash × Entry)),
      skel mL mR →
      (ancLoop maxA u dL inputs set mL).1 = (ancLoop maxA u' dR inputs set mR).1 ∧
      skel (ancLoop maxA u dL inputs set mL).2 (ancLoop maxA u' dR inputs set mR).2 := by
  intro inputs
  induction inputs with
  | nil =>
    intro set mL mR hs
    rw [ancLoop_nil, ancLoop_nil]
    exact ⟨rfl, hs⟩
  | cons inp rest ihl =>
    intro set mL mR hs
    cases hmg : mget mL inp.prevout.hash with
    | none =>
      have hmg' := skel_none hs hmg
      rw [ancLoop_cons_none maxA u dL rest set hmg,
        ancLoop_cons_none maxA u' dR rest set hmg']
      exact ihl set mL mR hs
    | some parent =>
      obtain ⟨parent', hmg', htx⟩ := skel_some hs hmg
      by_cases hmem : inp.prevout.hash ∈ set
      · rw [ancLoop_cons_mem maxA u dL rest hmg hmem,
          ancLoop_cons_mem maxA u' dR rest hmg' hmem]
        exact ihl set mL mR hs
      · have hsk1 : skel (mupd mL inp.prevout.hash u) (mupd mR inp.prevout.hash u') :=
          skel_mupd hs _ hu hu'
        by_cases hbr : maxA < (insert inp.prevout.hash set).card
        · rw [ancLoop_cons_break maxA u dL rest hmg hmem hbr,
            ancLoop_cons_break maxA u' dR rest hmg' hmem hbr]
          exact ⟨rfl, hsk1⟩
        · rw [ancLoop_cons_desc maxA u dL rest hmg hmem hbr,
            ancLoop_cons_desc maxA u' dR rest hmg' hmem hbr]
          rw [htx]
          obtain ⟨hseq, hsk2⟩ := hd parent.tx.inputs (insert inp.prevout.hash set)
            (mupd mL inp.prevout.hash u) (mupd mR inp.prevout.hash u') hsk1
          by_cases hbr2 : maxA <
              ((dL parent.tx.inputs (insert inp.prevout.hash set)
                (mupd mL inp.prevout.hash u)).1).card
          · rw [if_pos hbr2, if_pos (hseq ▸ hbr2)]
            exact ⟨hseq, hsk2⟩
          · rw [if_neg hbr2, if_neg (fun hc => hbr2 (hseq.symm ▸ hc))]
            rw [← hseq]
            exact ihl _ _ _ hsk2

/-- Runs of the walk over skeleton-related maps with tx-preserving callbacks
visit exactly the same hashes. -/
lemma ancGo_congr (maxA : Nat) {u u' : Entry → Entry}
    (hu : ∀ p, (u p).tx = p.tx) (hu' : ∀ p, (u' p).tx = p.tx) :
    ∀ (fuel : Nat) (inputs : List Input) (set : Finset Hash)
      (mL mR : List (Hash × Entry)), skel mL mR →
      (ancGo maxA u fuel inputs set mL).1 = (ancGo maxA u' fuel inputs set mR).1 ∧
      skel (ancGo maxA u fuel inputs set mL).2 (ancGo maxA u' fuel inputs set mR).2 := by
  intro fuel
  induction fuel with
  | zero =>
    rw [ancGo, ancGo]
    exact ancLoop_congr maxA hu hu' _ _ (fun i st mL mR hsk => ⟨rfl, hsk⟩)
  | succ f ihf =>
    rw [ancGo, ancGo]
    exact ancLoop_congr maxA hu hu' _ _ (fun i st mL mR hsk => ihf i st mL mR hsk)

/-- The loop applies the callback to exactly the hashes it adds to the
visited set, once each; everything else is untouched. -/
lemma ancLoop_char (maxA : Nat) (u : Entry → Entry)
    (descend : List Input → Finset Hash → List (Hash × Entry) →
      Finset Hash × List (Hash × Entry))
    (hdsub : ∀ i st mm, st ⊆ (descend i st mm).1)
    (hdchar : ∀ i st mm h, mget ((descend i st mm).2) h =
      if h ∈ (descend i st mm).1 ∧ h ∉ st then (mget mm h).map u else mget mm h) :
    ∀ (inputs : List Input) (set : Finset Hash) (m : List (Hash × Entry)) (h : Hash),
      mget ((ancLoop maxA u descend inputs set m).2) h =
        if h ∈ (ancLoop maxA u descend inputs set m).1 ∧ h ∉ set
        then (mget m h).map u else mget m h := by
  intro inputs
  induction inputs with
  | nil =>
    intro set m h
    rw [ancLoop_nil]
    rw [if_neg (fun hc : h ∈ set ∧ h ∉ set => hc.2 hc.1)]
  | cons inp rest ihl =>
    intro set m h
    cases hmg : mget m inp.prevout.hash with
    | none =>
      rw [ancLoop_cons_none maxA u descend rest set hmg]
      exact ihl set m h
    | some parent =>
      by_cases hmem : inp.prevout.hash ∈ set
      · rw [ancLoop_cons_mem maxA u descend rest hmg hmem]
        exact ihl set m h
      · by_cases hbr : maxA < (insert inp.prevout.hash set).card
        · rw [ancLoop_cons_break maxA u descend rest hmg hmem hbr]
          rw [mget_mupd]
          by_cases hk : h = inp.prevout.hash
          · subst hk
            simp [hmem]
          · have hnc : ¬ (h ∈ insert inp.prevout.hash set ∧ h ∉ set) := by
              rintro ⟨hin, hout⟩
              rcases Finset.mem_insert.mp hin with h1 | h1
              · exact hk h1
              · exact hout h1
            rw [if_neg hk, if_neg hnc]
        · rw [ancLoop_cons_desc maxA u descend rest hmg hmem hbr]
          have hchar := hdchar parent.tx.inputs (insert inp.prevout.hash set)
            (mupd m inp.prevout.hash u) h
          have hsub1 : insert inp.prevout.hash set ⊆
              (descend parent.tx.inputs (insert inp.prevout.hash set)
                (mupd m inp.prevout.hash u)).1 := hdsub _ _ _
          by_cases hbr2 : maxA <
              ((descend parent.tx.inputs (insert inp.prevout.hash set)
                (mupd m inp.prevout.hash u)).1).card
          · simp only [if_pos hbr2]
            rw [hchar, mget_mupd]
            by_cases hk : h = inp.prevout.hash
            · subst hk
              have hin1 := Finset.mem_insert_self inp.prevout.hash set
              have hinr := hsub1 hin1
              simp [hin1, hinr, hmem]
            · simp only [if_neg hk]
              by_cases hin : h ∈ set
              · have hin1 : h ∈ insert inp.prevout.hash set := Finset.mem_insert_of_mem hin
                simp [hin1, hin]
              · have hin1 : h ∉ insert inp.prevout.hash set := by
                  simp only [Finset.mem_insert]
                  rintro (hc | hc)
                  · exact hk hc
                  · exact hin hc
                simp [hin1, hin]
          · simp only [if_neg hbr2]
            rw [ihl _ _ h, hchar, mget_mupd]
            have hsub2 : (descend parent.tx.inputs (insert inp.prevout.hash set)
                  (mupd m inp.prevout.hash u)).1 ⊆
                (ancLoop maxA u descend rest
                  (descend parent.tx.inputs (insert inp.prevout.hash set)
                    (mupd m inp.prevout.hash u)).1
                  (descend parent.tx.inputs (insert inp.prevout.hash set)
                    (mupd m inp.prevout.hash u)).2).1 :=
              ancLoop_subset maxA u descend hdsub _ _ _
            by_cases hk : h = inp.prevout.hash
            · subst hk
              have hin1 := Finset.mem_insert_self inp.prevout.hash set
              have hinr := hsub1 hin1
              have hinres := hsub2 hinr
              simp [hin1, hinr, hinres, hmem]
            · simp only [if_neg hk]
              by_cases hin : h ∈ set
              · have hin1 : h ∈ insert inp.prevout.hash set := Finset.mem_insert_of_mem hin
                have hinr := hsub1 hin1
                have hinres := hsub2 hinr
                simp [hinr, hin, hinres]
              · have hin1 : h ∉ insert inp.prevout.hash set := by
                  simp only [Finset.mem_insert]
                  rintro (hc | hc)
                  · exact hk hc
                  · exact hin hc
                by_cases hinr : h ∈ (descend parent.tx.inputs
                    (insert inp.prevout.hash set) (mupd m inp.prevout.hash u)).1
                · have hinres := hsub2 hinr
                  simp [hinr, hin1, hinres, hin]
                · by_cases hinres : h ∈ (ancLoop maxA u descend rest
                      (descend parent.tx.inputs (insert inp.prevout.hash set)
                        (mupd m inp.prevout.hash u)).1
                      (descend parent.tx.inputs (insert inp.prevout.hash set)
                        (mupd m inp.prevout.hash u)).2).1
                  · simp [hinr, hin1, hinres, hin]
                  · simp [hinr, hin1, hinres, hin]

/-- The walk applies the callback to exactly the hashes it visits, once
each; everything else is untouched. -/
lemma ancGo_char (maxA : Nat) (u : Entry → Entry) :
    ∀ (fuel : Nat) (inputs : List Input) (set : Finset Hash)
      (m : List (Hash × Entry)) (h : Hash),
      mget ((ancGo maxA u fuel inputs set m).2) h =
        if h ∈ (ancGo maxA u fuel inputs set m).1 ∧ h ∉ set
        then (mget m h).map u else mget m h := by
  intro fuel
  induction fuel with
  | zero =>
    rw [ancGo]
    refine ancLoop_char maxA u _ (fun i st mm => Finset.Subset.refl st) ?_
    intro i st mm h
    exact (if_neg (fun hc : h ∈ st ∧ h ∉ st => hc.2 hc.1)).symm
  | succ f ihf =>
    rw [ancGo]
    exact ancLoop_char maxA u _ (fun i st mm => ancGo_subset maxA u f i st mm) ihf

/-- In-pool ancestry for the walk rooted at transaction `root`: the hashes
reachable by repeatedly following inputs whose previous transaction is in the
pool map. -/
inductive Anc (m : List (Hash × Entry)) (root : TX) : Hash → Prop where
  | base {inp : Input} : inp ∈ root.inputs → (mget m inp.prevout.hash).isSome →
      Anc m root inp.prevout.hash
  | step {h : Hash} {e : Entry} {inp : Input} : Anc m root h → mget m h = some e →
      inp ∈ e.tx.inputs → (mget m inp.prevout.hash).isSome →
      Anc m root inp.prevout.hash

lemma Anc_isSome {m : List (Hash × Entry)} {root : TX} {h : Hash}
    (ha : Anc m root h) : (mget m h).isSome := by
  cases ha with
  | base _ hs => exact hs
  | step _ _ _ hs => exact hs

/-- Every input of the list belongs to the root or to an in-pool ancestor. -/
def GoodInputs (m : List (Hash × Entry)) (root : TX) (inputs : List Input) : Prop :=
  ∀ inp ∈ inputs, inp ∈ root.inputs ∨
    ∃ hh e, Anc m root hh ∧ mget m hh = some e ∧ inp ∈ e.tx.inputs

/-- Soundness of the loop: everything it visits is an ancestor (for an
identity callback the map never changes, so ancestry stays over `m`). -/
lemma ancLoop_sound (maxA : Nat) (u : Entry → Entry) (hid : ∀ p, u p = p)
    (root : TX)
    (descend : List Input → Finset Hash → List (Hash × Entry) →
      Finset Hash × List (Hash × Entry))
    (hdm : ∀ i st mm, (descend i st mm).2 = mm)
    (hdsound : ∀ i st mm, (∀ x ∈ st, Anc mm root x) → GoodInputs mm root i →
      ∀ x ∈ (descend i st mm).1, Anc mm root x) :
    ∀ (inputs : List Input) (set : Finset Hash) (m : List (Hash × Entry)),
      (∀ x ∈ set, Anc m root x) → GoodInputs m root inputs →
      ∀ x ∈ (ancLoop maxA u descend inputs set m).1, Anc m root x := by
  intro inputs
  induction inputs with
  | nil =>
    intro set m hset _ x hx
    rw [ancLoop_nil] at hx
    exact hset x hx
  | cons inp rest ihl =>
    intro set m hset hgood
    have hgoodrest : GoodInputs m root rest := fun i2 h2 =>
      hgood i2 (List.mem_cons_of_mem inp h2)
    cases hmg : mget m inp.prevout.hash with
    | none =>
      rw [ancLoop_cons_none maxA u descend rest set hmg]
      exact ihl set m hset hgoodrest
    | some parent =>
      have hsome : (mget m inp.prevout.hash).isSome = true := by
        rw [hmg]; rfl
      have hanc : Anc m root inp.prevout.hash := by
        rcases hgood inp (List.mem_cons_self inp rest) with h1 | ⟨hh, e, ha, he, hin⟩
        · exact Anc.base h1 hsome
        · exact Anc.step ha he hin hsome
      have hset1 : ∀ x ∈ insert inp.prevout.hash set, Anc m root x := by
        intro x hx
        rcases Finset.mem_insert.mp hx with rfl | hx2
        · exact hanc
        · exact hset x hx2
      by_cases hmem : inp.prevout.hash ∈ set
      · rw [ancLoop_cons_mem maxA u descend rest hmg hmem]
        exact ihl set m hset hgoodrest
      · by_cases hbr : maxA < (insert inp.prevout.hash set).card
        · rw [ancLoop_cons_break maxA u descend rest hmg hmem hbr]
          rw [mupd_id m inp.prevout.hash hid]
          exact fun x hx => hset1 x hx
        · rw [ancLoop_cons_desc maxA u descend rest hmg hmem hbr]
          rw [mupd_id m inp.prevout.hash hid]
          have hgoodparent : GoodInputs m root parent.tx.inputs := fun i2 h2 =>
            Or.inr ⟨inp.prevout.hash, parent, hanc, hmg, h2⟩
          have hrsound := hdsound parent.tx.inputs (insert inp.prevout.hash set) m
            hset1 hgoodparent
          have hdm2 := hdm parent.tx.inputs (insert inp.prevout.hash set) m
          by_cases hbr2 : maxA <
              ((descend parent.tx.inputs (insert inp.prevout.hash set) m).1).card
          · simp only [if_pos hbr2]
            exact hrsound
          · simp only [if_neg hbr2]
            rw [hdm2]
            exact ihl _ m hrsound hgoodrest

/-- Soundness of the walk: everything it visits is an ancestor. -/
lemma ancGo_sound (maxA : Nat) (u : Entry → Entry) (hid : ∀ p, u p = p)
    (root : TX) :
    ∀ (fuel : Nat) (inputs : List Input) (set : Finset Hash)
      (m : List (Hash × Entry)),
      (∀ x ∈ set, Anc m root x) → GoodInputs m root inputs →
      ∀ x ∈ (ancGo maxA u fuel inputs set m).1, Anc m root x := by
  intro fuel
  induction fuel with
  | zero =>
    rw [ancGo]
    exact ancLoop_sound maxA u hid root _ (fun i st mm => rfl)
      (fun i st mm hset _ x hx => hset x hx)
  | succ f ihf =>
    rw [ancGo]
    exact ancLoop_sound maxA u hid root _
      (fun i st mm => ancGo_id_map maxA u hid f i st mm)
      (fun i st mm hset hgood => ihf i st mm hset hgood)

/-- The visited set covers the in-pool parents of each listed input. -/
def coversInputs (S : Finset Hash) (m : List (Hash × Entry))
    (inputs : List Input) : Prop :=
  ∀ inp ∈ inputs, ∀ p, mget m inp.prevout.hash = some p → inp.prevout.hash ∈ S

/-- Hashes visited during the run (those outside the initial set) have all
their in-pool parents visited as well. -/
def closedUnder (S : Finset Hash) (m : List (Hash × Entry))
    (set : Finset Hash) : Prop :=
  ∀ x ∈ S, x ∉ set → ∀ e, mget m x = some e → coversInputs S m e.tx.inputs

/-- Completeness of the loop, under enough fuel in the descends and no
break (expressed as: the final visited set stays within `maxA`). -/
lemma ancLoop_complete (maxA : Nat) (u : Entry → Entry) (hid : ∀ p, u p = p)
    (descend : List Input → Finset Hash → List (Hash × Entry) →
      Finset Hash × List (Hash × Entry)) (fuelD : Nat)
    (hdm : ∀ i st mm, (descend i st mm).2 = mm)
    (hdsub : ∀ i st mm, st ⊆ (descend i st mm).1)
    (hdc : ∀ i st mm, maxA + 1 ≤ fuelD + st.card → (descend i st mm).1.card ≤ maxA →
      coversInputs (descend i st mm).1 mm i ∧ closedUnder (descend i st mm).1 mm st) :
    ∀ (inputs : List Input) (set : Finset Hash) (m : List (Hash × Entry)),
      maxA + 1 ≤ (fuelD + 1) + set.card →
      (ancLoop maxA u descend inputs set m).1.card ≤ maxA →
      coversInputs (ancLoop maxA u descend inputs set m).1 m inputs ∧
      closedUnder (ancLoop maxA u descend inputs set m).1 m set := by
  intro inputs
  induction inputs with
  | nil =>
    intro set m hfuel hcard
    rw [ancLoop_nil] at hcard ⊢
    constructor
    · intro inp h2 p hp
      exact absurd h2 (List.not_mem_nil inp)
    · intro x hx hxs e he
      exact absurd hx hxs
  | cons inp rest ihl =>
    intro set m hfuel hcard
    cases hmg : mget m inp.prevout.hash with
    | none =>
      rw [ancLoop_cons_none maxA u descend rest set hmg] at hcard ⊢
      obtain ⟨hcov, hclo⟩ := ihl set m hfuel hcard
      refine ⟨?_, hclo⟩
      intro inp2 h2 p hp
      rcases List.mem_cons.mp h2 with rfl | h2
      · rw [hmg] at hp
        exact absurd hp (by simp)
      · exact hcov inp2 h2 p hp
    | some parent =>
      by_cases hmem : inp.prevout.hash ∈ set
      · rw [ancLoop_cons_mem maxA u descend rest hmg hmem] at hcard ⊢
        obtain ⟨hcov, hclo⟩ := ihl set m hfuel hcard
        refine ⟨?_, hclo⟩
        intro inp2 h2 p hp
        rcases List.mem_cons.mp h2 with rfl | h2
        · exact ancLoop_subset maxA u descend hdsub rest set m hmem
        · exact hcov inp2 h2 p hp
      · by_cases hbr : maxA < (insert inp.prevout.hash set).card
        · rw [ancLoop_cons_break maxA u descend rest hmg hmem hbr] at hcard
          exact absurd hcard (not_le.mpr hbr)
        · rw [ancLoop_cons_desc maxA u descend rest hmg hmem hbr] at hcard ⊢
          rw [mupd_id m inp.prevout.hash hid] at hcard ⊢
          have hdm2 := hdm parent.tx.inputs (insert inp.prevout.hash set) m
          by_cases hbr2 : maxA <
              ((descend parent.tx.inputs (insert inp.prevout.hash set) m).1).card
          · rw [if_pos hbr2] at hcard
            exact absurd hcard (not_le.mpr hbr2)
          · rw [if_neg hbr2] at hcard ⊢
            rw [hdm2] at hcard ⊢
            have hsub1 := hdsub parent.tx.inputs (insert inp.prevout.hash set) m
            have hsub2 := ancLoop_subset maxA u descend hdsub rest
              (descend parent.tx.inputs (insert inp.prevout.hash set) m).1 m
            have hcard1 : set.card + 1 = (insert inp.prevout.hash set).card :=
              (Finset.card_insert_of_not_mem hmem).symm
            have hcardset1 : (insert inp.prevout.hash set).card ≤
                (descend parent.tx.inputs (insert inp.prevout.hash set) m).1.card :=
              Finset.card_le_card hsub1
            have hcardr : (descend parent.tx.inputs
                  (insert inp.prevout.hash set) m).1.card ≤
                (ancLoop maxA u descend rest
                  (descend parent.tx.inputs (insert inp.prevout.hash set) m).1
                  m).1.card :=
              Finset.card_le_card hsub2
            have hfuel_inner : maxA + 1 ≤ fuelD +
                (insert inp.prevout.hash set).card := by omega
            have hcard_r : (descend parent.tx.inputs
                (insert inp.prevout.hash set) m).1.card ≤ maxA :=
              le_trans hcardr hcard
            obtain ⟨hcovIn, hcloIn⟩ := hdc parent.tx.inputs
              (insert inp.prevout.hash set) m hfuel_inner hcard_r
            have hfuel_outer : maxA + 1 ≤ (fuelD + 1) +
                (descend parent.tx.inputs (insert inp.prevout.hash set) m).1.card := by
              omega
            obtain ⟨hcovOut, hcloOut⟩ := ihl
              (descend parent.tx.inputs (insert inp.prevout.hash set) m).1 m
              hfuel_outer hcard
            constructor
            · intro inp2 h2 p hp
              rcases List.mem_cons.mp h2 with rfl | h2
              · exact hsub2 (hsub1 (Finset.mem_insert_self _ _))
              · exact hcovOut inp2 h2 p hp
            · intro x hx hxs e he
              by_cases hxr : x ∈ (descend parent.tx.inputs
                  (insert inp.prevout.hash set) m).1
              · by_cases hx1 : x ∈ insert inp.prevout.hash set
                · have hxkey : x = inp.prevout.hash := by
                    rcases Finset.mem_insert.mp hx1 with h1 | h1
                    · exact h1
                    · exact absurd h1 hxs
                  subst hxkey
                  rw [hmg] at he
                  have hep : e = parent := (Option.some.inj he).symm
                  subst hep
                  intro inp2 h2 p hp
                  exact hsub2 (hcovIn inp2 h2 p hp)
                · intro inp2 h2 p hp
                  exact hsub2 (hcloIn x hxr hx1 e he inp2 h2 p hp)
              · intro inp2 h2 p hp
                exact hcloOut x hx hxr e he inp2 h2 p hp

/-- Completeness of the walk: with `fuel + set.card` exceeding
`maxAncestors` and a final visited set within the bound (no break), the
walk covers the in-pool parents of its inputs and is closed under in-pool
parents of newly visited hashes. -/
lemma ancGo_complete (maxA : Nat) (u : Entry → Entry) (hid : ∀ p, u p = p) :
    ∀ (fuel : Nat) (inputs : List Input) (set : Finset Hash)
      (m : List (Hash × Entry)),
      maxA + 1 ≤ fuel + set.card →
      (ancGo maxA u fuel inputs set m).1.card ≤ maxA →
      coversInputs (ancGo maxA u fuel inputs set m).1 m inputs ∧
      closedUnder (ancGo maxA u fuel inputs set m).1 m set := by
  intro fuel
  induction fuel with
  | zero =>
    intro inputs set m hfuel hcard
    have hsub := ancGo_subset maxA u 0 inputs set m
    have := Finset.card_le_card hsub
    omega
  | succ f ihf =>
    intro inputs set m hfuel hcard
    rw [ancGo] at hcard ⊢
    exact ancLoop_complete maxA u hid _ f
      (fun i st mm => ancGo_id_map maxA u hid f i st mm)
      (fun i st mm => ancGo_subset maxA u f i st mm)
      (fun i st mm hf hc => ihf i st mm hf hc)
      inputs set m hfuel hcard

/-- C5: `updateAncestors(entry, addFee)` adds `entry.deltaFee` to `descFee`
and `entry.size` to `descSize` of every distinct in-pool ancestor of the
entry, exactly once per ancestor, and leaves every other entry untouched —
provided the admission precondition `countAncestors(entry) + 1 ≤ maxAncestors`
holds (so the `maxAncestors` bound never truncates the traversal). -/
theorem updateAncestors_addFee (maxA : Nat) (s : St) (e0 : Entry)
    (hpre : countAncestorsF maxA s e0 + 1 ≤ maxA) :
    ∀ h : Hash,
      (Anc s.map e0.tx h →
        ∃ p, mget s.map h = some p ∧
          mget (updateAncestorsF maxA s e0 addFee).map h = some (addFee p e0)) ∧
      (¬ Anc s.map e0.tx h →
        mget (updateAncestorsF maxA s e0 addFee).map h = mget s.map h) := by
  have hid : ∀ p, (fun p => nop p e0) p = p := fun p => rfl
  have htx_id : ∀ p, ((fun p => nop p e0) p).tx = p.tx := fun p => rfl
  have htx_add : ∀ p, ((fun p => addFee p e0) p).tx = p.tx := fun p => rfl
  have hcongr := ancGo_congr maxA htx_id htx_add (maxA + 1) e0.tx.inputs ∅
    s.map s.map (skel_refl s.map)
  have hcard : (ancGo maxA (fun p => nop p e0) (maxA + 1) e0.tx.inputs ∅
      s.map).1.card ≤ maxA := by
    unfold countAncestorsF at hpre
    omega
  obtain ⟨hcov, hclo⟩ := ancGo_complete maxA (fun p => nop p e0) hid (maxA + 1)
    e0.tx.inputs ∅ s.map (by simp) hcard
  have hsound := ancGo_sound maxA (fun p => nop p e0) hid e0.tx (maxA + 1)
    e0.tx.inputs ∅ s.map (fun x hx => absurd hx (Finset.not_mem_empty x))
    (fun inp hin => Or.inl hin)
  have hAncIn : ∀ h : Hash, Anc s.map e0.tx h →
      h ∈ (ancGo maxA (fun p => nop p e0) (maxA + 1) e0.tx.inputs ∅ s.map).1 := by
    intro h ha
    induction ha with
    | base hin hsome =>
      obtain ⟨p, hp⟩ := Option.isSome_iff_exists.mp hsome
      exact hcov _ hin p hp
    | step ha2 he hin hsome ih =>
      obtain ⟨p, hp⟩ := Option.isSome_iff_exists.mp hsome
      exact hclo _ ih (Finset.not_mem_empty _) _ he _ hin p hp
  have hchar := ancGo_char maxA (fun p => addFee p e0) (maxA + 1) e0.tx.inputs ∅
    s.map
  intro h
  have hmapeq : (updateAncestorsF maxA s e0 addFee).map =
      (ancGo maxA (fun p => addFee p e0) (maxA + 1) e0.tx.inputs ∅ s.map).2 := rfl
  constructor
  · intro ha
    have hin : h ∈ (ancGo maxA (fun p => addFee p e0) (maxA + 1) e0.tx.inputs ∅
        s.map).1 := by
      rw [← hcongr.1]
      exact hAncIn h ha
    obtain ⟨p, hp⟩ := Option.isSome_iff_exists.mp (Anc_isSome ha)
    refine ⟨p, hp, ?_⟩
    rw [hmapeq, hchar h, if_pos ⟨hin, Finset.not_mem_empty h⟩, hp]
    rfl
  · intro hna
    have hnin : h ∉ (ancGo maxA (fun p => addFee p e0) (maxA + 1) e0.tx.inputs ∅
        s.map).1 := by
      rw [← hcongr.1]
      exact fun hc => hna (hsound h hc)
    rw [hmapeq, hchar h, if_neg (fun hc => hnin hc.1)]

/-- Parent transaction for the traversal example: hash 1, no inputs. -/
def entryP : Entry where
  tx := { TX0 with hash := 1 }
  height := 0
  size := 100
  sigops := 1
  priority := 0
  fee := 5
  deltaFee := 5
  descFee := 5
  descSize := 100
  time := 1

/-- Child entry for the traversal example: spends output 0 of hash 1. -/
def entryC : Entry where
  tx := { TX0 with hash := 2, inputs := [⟨⟨1, 0⟩, 4294967295⟩] }
  height := 0
  size := 50
  sigops := 1
  priority := 0
  fee := 7
  deltaFee := 7
  descFee := 7
  descSize := 50
  time := 2

/-- A pool holding only the parent entry. -/
def stW : St := { St.initial 5 with map := [(1, entryP)], size := entryP.memUsage }

/-- C5 (witness): inserting the child below the 25-ancestor cap bumps the
(unique) ancestor at hash 1 by the child deltaFee and size, exactly once. -/
theorem updateAncestors_addFee_witness :
    countAncestorsF 25 stW entryC + 1 ≤ 25 ∧
    ∃ p, mget stW.map 1 = some p ∧
      mget (updateAncestorsF 25 stW entryC addFee).map 1 = some (addFee p entryC) := by
  refine ⟨by decide, ?_⟩
  exact ((updateAncestors_addFee 25 stW entryC (by decide)) 1).1
    (@Anc.base stW.map entryC.tx ⟨⟨1, 0⟩, 4294967295⟩ (by decide) (by decide))

/-! ## Coin view, orphans, verification, admission -/

/-- The coin view as the mempool observes it: the set of resolved outpoints
(`view.hasEntry(prevout)`); the coin contents feed only oracled tx methods. -/
abbrev CoinView := List Outpoint

/-- `getPrevout()` — the distinct previous-transaction hashes of the inputs,
in first-occurrence order. -/
def TX.getPrevout (tx : TX) : List Hash :=
  List.foldl
    (fun acc inp =>
      if inp.prevout.hash ∈ acc then acc else acc ++ [inp.prevout.hash])
    [] tx.inputs

/-- The loop of `getCoinView(tx)`: resolve each input from an in-pool parent
output when the index is in range, otherwise from the chain
(`chain.readCoin`); unresolved inputs stay absent from the view. -/
def getCoinViewLoop (env : Env) (s : St) : List Input → CoinView → CoinView
  | [], view => view
  | inp :: rest, view =>
    match getTX s inp.prevout.hash with
    | some ptx =>
      if inp.prevout.index < ptx.outputsLen then
        getCoinViewLoop env s rest (view ++ [inp.prevout])
      else
        getCoinViewLoop env s rest view
    | none =>
      if env.readCoin inp.prevout then
        getCoinViewLoop env s rest (view ++ [inp.prevout])
      else
        getCoinViewLoop env s rest view

/-- `getCoinView(tx)` (the pure content of the async original). -/
def getCoinViewF (env : Env) (s : St) (tx : TX) : CoinView :=
  getCoinViewLoop env s tx.inputs []

/-- Modelled from the spec: `policy.MAX_TX_WEIGHT` (policy.js is not in the
sources) — the standard transaction weight limit. -/
def MAX_TX_WEIGHT : Nat := 400000

/-- Modelled from the spec: `policy.MAX_TX_SIGOPS_COST` (policy.js is not in
the sources) — the maximum sigops cost per transaction. -/
def MAX_TX_SIGOPS_COST : Nat := 80000

/-- Modelled from the spec: `policy.getMinFee(size, rate)` (policy.js is not
in the sources) — the minimum relay fee for the size, rounded down. -/
def getMinFee (size : Int) (rate : Nat) : Int := ((rate : Int) * size) / 1000

/-- The waiting-map deletions performed by `removeOrphan`, with the assertion
`set.has(hash)` thrown mid-loop exactly as in the source (so earlier
deletions persist). -/
def removeOrphanWaiting (h : Hash) :
    List Hash → List (Hash × List Hash) → List (Hash × List Hash) × Res Unit
  | [], w => (w, .ok ())
  | prev :: rest, w =>
    match mget w prev with
    | none => removeOrphanWaiting h rest w
    | some set =>
      if h ∈ set then
        let set1 := set.erase h
        let w1 := if set1.isEmpty then mdel w prev else mset w prev set1
        removeOrphanWaiting h rest w1
      else (w, .thrown (.assert "removeOrphan: set.has(hash)"))

/-- `removeOrphan(hash)` — drop the orphan and scrub it from every waiting
set; a deserialization failure only deletes the orphan entry. -/
def removeOrphanF (s : St) (h : Hash) : St × Res Bool :=
  match mget s.orphans h with
  | none => (s, .ok false)
  | some o =>
    match o.toTX with
    | none => ({ s with orphans := mdel s.orphans h }, .ok false)
    | some tx =>
      let (w1, r) := removeOrphanWaiting h tx.getPrevout s.waiting
      match r with
      | .thrown e => ({ s with waiting := w1 }, .thrown e)
      | .ok _ =>
        let s1 := { s with waiting := w1, orphans := mdel s.orphans h }
        (pushEv s1 (.removeOrphan h), .ok true)

/-- The loop of `resolveOrphans`: decrement each waiting orphan, extracting
those whose missing count reaches zero. -/
def resolveLoop :
    List Hash → List (Hash × Orphan) → List Orphan →
      List (Hash × Orphan) × List Orphan × Res Unit
  | [], os, acc => (os, acc, .ok ())
  | h :: rest, os, acc =>
    match mget os h with
    | none => (os, acc, .thrown (.assert "resolveOrphans: orphan"))
    | some o =>
      let miss := o.missing - 1
      if miss = 0 then
        resolveLoop rest (mdel os h) (acc ++ [{ o with missing := miss }])
      else
        resolveLoop rest (mset os h { o with missing := miss }) acc

/-- `resolveOrphans(parent)` — pull out the orphans completed by the arrival
of `parent` and delete its waiting entry. -/
def resolveOrphansF (s : St) (parentHash : Hash) : St × Res (List Orphan) :=
  match mget s.waiting parentHash with
  | none => (s, .ok [])
  | some set =>
    if set.isEmpty then (s, .thrown (.assert "resolveOrphans: set.size > 0"))
    else
      match resolveLoop set s.orphans [] with
      | (os1, _acc, .thrown e) => ({ s with orphans := os1 }, .thrown e)
      | (os1, acc, .ok _) =>
        ({ s with orphans := os1, waiting := mdel s.waiting parentHash }, .ok acc)

/-- The key selected by the `limitOrphans` iteration: the `index`-th key, or
the last key when the random index is not reached before the keys run out. -/
def limitOrphansPick : List (Hash × Orphan) → Nat → Option Hash
  | [], _ => none
  | (h, _) :: _, 0 => some h
  | (h, _) :: rest, i + 1 =>
    match rest with
    | [] => some h
    | r :: rs => limitOrphansPick (r :: rs) i

/-- `limitOrphans()` — when the orphan map is at capacity, remove one orphan
chosen by a random index over the keys. -/
def limitOrphansF (env : Env) (s : St) : St × Res Bool :=
  if s.orphans.length < env.opts.maxOrphans then (s, .ok false)
  else
    match limitOrphansPick s.orphans (env.randomRange 0 s.orphans.length) with
    | none => (s, .thrown (.assert "limitOrphans: hash"))
    | some h =>
      let (s1, r) := removeOrphanF s h
      match r with
      | .thrown e => (s1, .thrown e)
      | .ok _ => (s1, .ok true)

/-- The input scan of `maybeOrphan`: collect the distinct missing parent
hashes; a missing parent that is in the reject filter, or whose transaction
is in the pool with the referenced output unresolved, adds the tx to the
reject filter and drops it (returning the so-far-empty `missing`). -/
def maybeOrphanScan (s : St) (view : CoinView) (txHash : Hash) :
    List Input → List Hash → (St × List Hash) ⊕ List Hash
  | [], hashes => .inr hashes
  | inp :: rest, hashes =>
    if inp.prevout ∈ view then maybeOrphanScan s view txHash rest hashes
    else if hasReject s inp.prevout.hash then .inl (rejectsAdd s txHash, [])
    else if hasEntry s inp.prevout.hash then .inl (rejectsAdd s txHash, [])
    else
      maybeOrphanScan s view txHash rest
        (if inp.prevout.hash ∈ hashes then hashes
         else hashes ++ [inp.prevout.hash])

/-- The waiting-map insertions of `maybeOrphan`. -/
def addWaiting (orphanHash : Hash) :
    List Hash → List (Hash × List Hash) → List (Hash × List Hash)
  | [], w => w
  | prev :: rest, w =>
    let w1 :=
      match mget w prev with
      | none => mset w prev [orphanHash]
      | some set =>
        mset w prev (if orphanHash ∈ set then set else set ++ [orphanHash])
    addWaiting orphanHash rest w1

/-- `maybeOrphan(tx, view, id)` — classify a transaction with unresolved
inputs: drop it (returning `[]`) on rejected or spent parents, excessive
weight, or a zero orphan capacity; otherwise enroll it in `orphans` and
`waiting` and return the missing parent hashes. Returns `none` when nothing
is missing. -/
def maybeOrphanF (env : Env) (s : St) (tx : TX) (view : CoinView) (id : Int) :
    St × Res (Option (List Hash)) :=
  match maybeOrphanScan s view tx.hash tx.inputs [] with
  | .inl (s1, missing) => (s1, .ok (some missing))
  | .inr hashes =>
    if hashes.isEmpty then (s, .ok none)
    else if MAX_TX_WEIGHT < tx.weight then
      (if tx.witness then s else rejectsAdd s tx.hash, .ok (some []))
    else if env.opts.maxOrphans = 0 then (s, .ok (some []))
    else
      let (s1, r) := limitOrphansF env s
      match r with
      | .thrown e => (s1, .thrown e)
      | .ok _ =>
        let s2 := { s1 with waiting := addWaiting tx.hash hashes s1.waiting }
        let s3 := { s2 with
          orphans := mset s2.orphans tx.hash ⟨tx, hashes.length, id, false⟩ }
        (pushEv s3 (.addOrphan tx.hash), .ok (some hashes))

/-- `verifyInputs(tx, view, flags)` — script verification through the worker
pool, with the standard-versus-mandatory retry of the source. -/
def verifyInputsF (env : Env) (tx : TX) (flags : VFlags) : Res Unit :=
  if env.verifyAsync tx flags then .ok ()
  else if flags.hasOnlyStandard then
    if env.verifyAsync tx flags.dropOnlyStandard then
      .thrown (.verify tx.hash .nonstandard "non-mandatory-script-verify-flag" 0 false)
    else
      .thrown (.verify tx.hash .nonstandard "mandatory-script-verify-flag" 100 false)
  else
    .thrown (.verify tx.hash .nonstandard "mandatory-script-verify-flag" 100 false)

/-- `verifyResult(tx, view, flags)` — success as a boolean; only
`VerifyError` is converted, anything else is rethrown. -/
def verifyResultF (env : Env) (tx : TX) (flags : VFlags) : Res Bool :=
  match verifyInputsF env tx flags with
  | .ok _ => .ok true
  | .thrown e => if e.isVerifyError then .ok false else .thrown e

/-- Modelled from the spec: `MempoolEntry.fromTX(tx, view, height)`
(mempoolentry.js is not in the sources) — wrap the transaction with its fee,
virtual size, sigops cost, insertion time and the given height; the
descendant aggregates start at the own fee and size. -/
def MempoolEntry.fromTX (env : Env) (tx : TX) (height : Int) : Entry where
  tx := tx
  height := height
  size := tx.vsize
  sigops := tx.sigopsCost
  priority := 0
  fee := tx.fee
  deltaFee := tx.fee
  descFee := tx.fee
  descSize := tx.vsize
  time := env.now

/-- `verify(entry, view)` — the contextual verification of admission step 10:
sequence locks, standardness of inputs and witness, sigops, minimum fee and
priority, the decaying free-relay throttle (which mutates `freeCount` and
`lastTime`), the absurd-fee ceiling, the ancestor cap, `checkInputs`, and
script verification with the malleation-detecting retry. -/
def verifyTailF (env : Env) (s1 : St) (entry : Entry) (limited : Bool) :
    St × Res Unit :=
  let height := env.chainHeight + 1
  let tx := entry.tx
  let minFee := getMinFee entry.size env.opts.minRelay
  if limited then
    (s1, .thrown (.verify tx.hash .insufficientfee "rate limited free transaction" 0 false))
  else if env.opts.rejectAbsurdFees ∧ minFee * 10000 < entry.fee then
    (s1, .thrown (.verify tx.hash .highfee "absurdly-high-fee" 0 false))
  else if env.opts.maxAncestors <
      countAncestorsF env.opts.maxAncestors s1 entry + 1 then
    (s1, .thrown (.verify tx.hash .nonstandard "too-long-mempool-chain" 0 false))
  else
    let ci := tx.checkInputs height
    if ci.1 = -1 then
      (s1, .thrown (.verify tx.hash .invalid ci.2.1 ci.2.2 false))
    else
      match verifyInputsF env tx STANDARD_VERIFY_FLAGS with
      | .ok _ =>
        if env.opts.paranoidChecks then
          match verifyResultF env tx MANDATORY_VERIFY_FLAGS with
          | .ok true => (s1, .ok ())
          | .ok false =>
            (s1, .thrown (.assert "BUG: Verify failed for mandatory but not standard."))
          | .thrown e => (s1, .thrown e)
        else (s1, .ok ())
      | .thrown err =>
        if tx.witness then (s1, .thrown err)
        else
          let flags1 :=
            { STANDARD_VERIFY_FLAGS with witness := false, cleanstack := false }
          match verifyResultF env tx flags1 with
          | .thrown e => (s1, .thrown e)
          | .ok false => (s1, .thrown err)
          | .ok true =>
            let flags2 := { flags1 with cleanstack := true }
            match verifyResultF env tx flags2 with
            | .thrown e => (s1, .thrown e)
            | .ok true => (s1, .thrown err)
            | .ok false => (s1, .thrown err.setMalleated)

/-- `verify(entry, view)`, first half: the early contextual checks and the
decaying free-relay throttle; the remainder of the body is `verifyTailF`
applied to the possibly-throttled state. -/
def verifyF (env : Env) (s : St) (entry : Entry) (_view : CoinView) :
    St × Res Unit :=
  let height := env.chainHeight + 1
  let tx := entry.tx
  if ¬ env.verifyLocks tx then
    (s, .thrown (.verify tx.hash .nonstandard "non-BIP68-final" 0 false))
  else if env.opts.requireStandard ∧ ¬ tx.hasStandardInputs then
    (s, .thrown (.verify tx.hash .nonstandard "bad-txns-nonstandard-inputs" 0 false))
  else if env.opts.requireStandard ∧ env.chainHasWitness ∧ ¬ tx.hasStandardWitness then
    (s, .thrown (.verify tx.hash .nonstandard "bad-witness-nonstandard" 0 true))
  else if MAX_TX_SIGOPS_COST < entry.sigops then
    (s, .thrown (.verify tx.hash .nonstandard "bad-txns-too-many-sigops" 0 false))
  else
    let minFee := getMinFee entry.size env.opts.minRelay
    if env.opts.relayPriority ∧ entry.fee < minFee ∧ ¬ tx.isFree height then
      (s, .thrown (.verify tx.hash .insufficientfee "insufficient priority" 0 false))
    else
      let throttle :=
        if env.opts.limitFree ∧ entry.fee < minFee then
          let fc := s.freeCount * ((1 : ℚ) - 1 / 600) ^ (env.now - s.lastTime)
          let s1 := { s with freeCount := fc, lastTime := env.now }
          if ((env.opts.limitFreeRelay * 10 * 1000 : Nat) : ℚ) < fc then
            (s1, true)
          else
            ({ s1 with freeCount := fc + (entry.size : ℚ) }, false)
        else (s, false)
      verifyTailF env throttle.1 entry throttle.2

/-- `removeEntry(entry)` — untrack and emit; the fee estimator and cache
calls are external collaborators and not modelled. -/
def removeEntryF (s : St) (e : Entry) : St × Res Unit :=
  let (s1, r) := untrackEntryF s e
  match r with
  | .thrown err => (s1, .thrown err)
  | .ok _ => (pushEv s1 (.removeEntry e.tx.hash), .ok ())

/-- The output loop of `removeSpenders`: recursively remove the spender of
each output, if any, through `lower` (the recursion one fuel level down). -/
def removeSpLoop (lower : St → Entry → St × Res Unit) (h : Hash) :
    List Nat → St → St × Res Unit
  | [], s => (s, .ok ())
  | i :: rest, s =>
    match getSpent s h i with
    | none => removeSpLoop lower h rest s
    | some spender =>
      let (s1, r) := lower s spender
      match r with
      | .thrown e => (s1, .thrown e)
      | .ok _ =>
        let (s2, r2) := removeEntryF s1 spender
        match r2 with
        | .thrown e => (s2, .thrown e)
        | .ok _ => removeSpLoop lower h rest s2

/-- `removeSpenders(entry)`, fuelled by recursion depth (spender chains are
bounded by the pool size, so the fuel `map.length + 1` supplied by
`evictEntry` cannot run out in a sane state). -/
def removeSpendersF : Nat → St → Entry → St × Res Unit
  | 0, s, _ => (s, .thrown .fuel)
  | fuel + 1, s, e =>
    removeSpLoop (removeSpendersF fuel) e.tx.hash (List.range e.tx.outputsLen) s

/-- `evictEntry(entry)` — remove the spenders, roll the descendant fees out
of the ancestors, and remove the entry. -/
def evictEntryF (env : Env) (s : St) (e : Entry) : St × Res Unit :=
  let (s1, r) := removeSpendersF (s.map.length + 1) s e
  match r with
  | .thrown err => (s1, .thrown err)
  | .ok _ =>
    let s2 := updateAncestorsF env.opts.maxAncestors s1 e removeFee
    removeEntryF s2 e

/-- Modelled from the spec: the eviction priority queue (utils/heap.js is not
in the sources) keyed by `cmpRate`; `shift()` removes a minimal element. -/
def heapMin : List Entry → Option (Entry × List Entry)
  | [] => none
  | e :: rest =>
    match heapMin rest with
    | none => some (e, rest)
    | some (m, others) =>
      if cmpRate e m ≤ 0 then some (e, rest) else some (m, e :: others)

/-- The expiry pass of `limitSize`: iterate a snapshot of the pool values
(JS Map iteration skips entries deleted mid-loop, hence the `hasEntry`
guard), queue dependency-free unexpired entries, evict expired ones. -/
def limitExpiryLoop (env : Env) : List Entry → St → List Entry →
    St × List Entry × Res Unit
  | [], s, queue => (s, queue, .ok ())
  | e :: rest, s, queue =>
    if ¬ hasEntry s e.tx.hash then limitExpiryLoop env rest s queue
    else if hasDepends s e.tx then limitExpiryLoop env rest s queue
    else if env.now < e.time + env.opts.expiryTime then
      limitExpiryLoop env rest s (queue ++ [e])
    else
      match evictEntryF env s e with
      | (s1, .thrown err) => (s1, queue, .thrown err)
      | (s1, .ok _) => limitExpiryLoop env rest s1 queue

/-- The heap pass of `limitSize`: pop the lowest-rate entry (which must
still be present — the assert of the source) and evict, until the size
falls to the threshold or the queue empties. The fuel is the initial queue
length, which bounds the number of pops. -/
def limitHeapLoop (env : Env) (threshold : Int) :
    Nat → List Entry → St → St × Res Unit
  | _, [], s => (s, .ok ())
  | 0, _ :: _, s => (s, .thrown .fuel)
  | fuel + 1, e0 :: qrest, s =>
    match heapMin (e0 :: qrest) with
    | none => (s, .ok ())
    | some (entry, q1) =>
      if ¬ hasEntry s entry.tx.hash then
        (s, .thrown (.assert "limitSize: this.hasEntry(hash)"))
      else
        match evictEntryF env s entry with
        | (s1, .thrown e) => (s1, .thrown e)
        | (s1, .ok _) =>
          if s1.size ≤ threshold then (s1, .ok ())
          else limitHeapLoop env threshold fuel q1 s1

/-- `limitSize(added)` — below `maxSize` do nothing and return `false`;
otherwise run the expiry pass and, if still above the 90% threshold, evict
from the `cmpRate` heap; the return value reports whether the just-added
hash is no longer present. -/
def limitSizeF (env : Env) (s : St) (added : Hash) : St × Res Bool :=
  let maxSize := env.opts.maxSize
  if s.size ≤ maxSize then (s, .ok false)
  else
    let threshold := maxSize - maxSize / 10
    match limitExpiryLoop env (s.map.map Prod.snd) s [] with
    | (s1, _, .thrown e) => (s1, .thrown e)
    | (s1, queue, .ok _) =>
      if s1.size ≤ threshold then (s1, .ok (! hasEntry s1 added))
      else
        match limitHeapLoop env threshold queue.length queue s1 with
        | (s2, .thrown e) => (s2, .thrown e)
        | (s2, .ok _) => (s2, .ok (! hasEntry s2 added))

/-- The replay loop of `handleOrphans`: deserialization failures are
skipped; a `VerifyError` from `insertTX` is swallowed (adding the tx to the
reject filter when it has no witness and is not malleated, and emitting
`bad orphan`); other exceptions propagate; a still-missing replay is
double-orphaned and removed. `insertL` is the admission one fuel level
down. -/
def handleLoopP (insertL : St → TX → Int → St × Res (Option (List Hash))) :
    List Orphan → St → St × Res Unit
  | [], s => (s, .ok ())
  | o :: rest, s =>
    match o.toTX with
    | none => handleLoopP insertL rest s
    | some tx =>
      let (s1, r) := insertL s tx o.id
      match r with
      | .thrown e =>
        if e.isVerifyError then
          let s2 :=
            if ¬ tx.witness ∧ ¬ e.isMalleated then rejectsAdd s1 tx.hash else s1
          handleLoopP insertL rest (pushEv s2 (.badOrphan e o.id))
        else (s1, .thrown e)
      | .ok (some (_mh :: _mt)) =>
        let (s2, r2) := removeOrphanF s1 tx.hash
        match r2 with
        | .thrown e => (s2, .thrown e)
        | .ok _ => handleLoopP insertL rest s2
      | .ok _ => handleLoopP insertL rest s1

/-- `handleOrphans(parent)` parameterized by the admission function. -/
def handleOrphansP (insertL : St → TX → Int → St × Res (Option (List Hash)))
    (s : St) (parent : TX) : St × Res Unit :=
  let (s1, r) := resolveOrphansF s parent.hash
  match r with
  | .thrown e => (s1, .thrown e)
  | .ok resolved => handleLoopP insertL resolved s1

/-- `addEntry(entry, view)` — track, roll fees into the ancestors, emit
`tx` and `add entry`, and resolve any waiting orphans; the fee estimator and
cache calls are not modelled. -/
def addEntryP (insertL : St → TX → Int → St × Res (Option (List Hash)))
    (env : Env) (s : St) (entry : Entry) (_view : CoinView) : St × Res Unit :=
  let (s1, r) := trackEntryF s entry
  match r with
  | .thrown e => (s1, .thrown e)
  | .ok _ =>
    let s2 := updateAncestorsF env.opts.maxAncestors s1 entry addFee
    let s3 := pushEv (pushEv s2 (.tx entry.tx.hash)) (.addEntry entry.tx.hash)
    handleOrphansP insertL s3 entry.tx

/-- `insertTX(tx, id)` — the admission pipeline, parameterized by the
admission function used for orphan replays. -/
def insertTXP (insertL : St → TX → Int → St × Res (Option (List Hash)))
    (env : Env) (s : St) (tx : TX) (id : Int) : St × Res (Option (List Hash)) :=
  if tx.mutable then (s, .thrown (.assert "Cannot add mutable TX to mempool."))
  else
    let height := env.chainHeight
    let sanity := tx.checkSanity height
    if ¬ sanity.1 then
      (s, .thrown (.verify tx.hash .invalid sanity.2.1 sanity.2.2 false))
    else if tx.coinbase then
      (s, .thrown (.verify tx.hash .invalid "coinbase" 100 false))
    else if env.opts.requireStandard ∧ ¬ env.hasCSV ∧ 2 ≤ tx.version then
      (s, .thrown (.verify tx.hash .nonstandard "premature-version2-tx" 0 false))
    else if ¬ env.chainHasWitness ∧ ¬ env.opts.prematureWitness ∧ tx.witness then
      (s, .thrown (.verify tx.hash .nonstandard "no-witness-yet" 0 true))
    else if env.opts.requireStandard ∧ ¬ (tx.checkStandard).1 then
      (s, .thrown (.verify tx.hash .nonstandard (tx.checkStandard).2.1
        (tx.checkStandard).2.2 false))
    else if env.opts.requireStandard ∧ ¬ env.opts.replaceByFee ∧ tx.rbf then
      (s, .thrown (.verify tx.hash .nonstandard "replace-by-fee" 0 false))
    else if ¬ env.verifyFinal tx then
      (s, .thrown (.verify tx.hash .nonstandard "non-final" 0 false))
    else if existsTX env s tx.hash then
      (s, .thrown (.verify tx.hash .alreadyknown "txn-already-in-mempool" 0 false))
    else if env.hasCoins tx then
      (s, .thrown (.verify tx.hash .alreadyknown "txn-already-known" 0 false))
    else if isDoubleSpend s tx then
      (pushEv s (.conflict tx.hash),
        .thrown (.verify tx.hash .duplicate "bad-txns-inputs-spent" 0 false))
    else
      let view := getCoinViewF env s tx
      match maybeOrphanF env s tx view id with
      | (s1, .thrown e) => (s1, .thrown e)
      | (s1, .ok (some missing)) => (s1, .ok (some missing))
      | (s1, .ok none) =>
        let entry := MempoolEntry.fromTX env tx height
        match verifyF env s1 entry view with
        | (s2, .thrown e) => (s2, .thrown e)
        | (s2, .ok _) =>
          match addEntryP insertL env s2 entry view with
          | (s3, .thrown e) => (s3, .thrown e)
          | (s3, .ok _) =>
            match limitSizeF env s3 tx.hash with
            | (s4, .thrown e) => (s4, .thrown e)
            | (s4, .ok full) =>
              if full then
                (s4, .thrown (.verify tx.hash .insufficientfee "mempool full" 0 false))
              else (s4, .ok none)

/-- `insertTX`, fuelled by the depth of the orphan-replay cascade (each
replayed orphan was removed from the orphan map before its replay, so a fuel
beyond the orphan count cannot run out). -/
def insertTXF (env : Env) : Nat → St → TX → Int → St × Res (Option (List Hash))
  | 0, s, _, _ => (s, .thrown .fuel)
  | fuel + 1, s, tx, id => insertTXP (insertTXF env fuel) env s tx id

/-- `handleOrphans(parent)` at a given replay fuel. -/
def handleOrphansF (env : Env) (fuel : Nat) (s : St) (parent : TX) :
    St × Res Unit :=
  handleOrphansP (insertTXF env fuel) s parent

/-- `_addTX(tx, id)` — admission plus the reject-filter bookkeeping of the
catch block; the cache flush throttle only updates `lastFlush`. -/
def addTXF (env : Env) (fuel : Nat) (s : St) (tx : TX) (id : Int) :
    St × Res (Option (List Hash)) :=
  let (s1, r) := insertTXF env fuel s tx id
  match r with
  | .thrown err =>
    let s2 :=
      if err.isVerifyError ∧ ¬ tx.witness ∧ ¬ err.isMalleated then
        rejectsAdd s1 tx.hash
      else s1
    (s2, .thrown err)
  | .ok missing =>
    let s2 :=
      if 10 < env.now - s1.lastFlush then { s1 with lastFlush := env.now }
      else s1
    (s2, .ok missing)

/-- A chain block as the mempool sees it. -/
structure Block where
  hash : Hash
  prevBlock : Hash
  height : Int

/-- The input loop of `removeDoubleSpends(tx)`. -/
def removeDoubleSpendsLoop (env : Env) : List Input → St → St × Res Unit
  | [], s => (s, .ok ())
  | inp :: rest, s =>
    match getSpent s inp.prevout.hash inp.prevout.index with
    | none => removeDoubleSpendsLoop env rest s
    | some spent =>
      match evictEntryF env s spent with
      | (s1, .thrown e) => (s1, .thrown e)
      | (s1, .ok _) =>
        removeDoubleSpendsLoop env rest (pushEv s1 (.doubleSpend spent.tx.hash))

/-- `removeDoubleSpends(tx)` — evict every in-pool spender of an input of a
confirmed transaction. -/
def removeDoubleSpendsF (env : Env) (s : St) (tx : TX) : St × Res Unit :=
  removeDoubleSpendsLoop env tx.inputs s

/-- The per-transaction loop of `_addBlock` (over the non-coinbase
transactions in reverse order). -/
def addBlockLoop (env : Env) (fuel : Nat) : List TX → St → St × Res Unit
  | [], s => (s, .ok ())
  | tx :: rest, s =>
    match getEntry s tx.hash with
    | none =>
      match removeOrphanF s tx.hash with
      | (s1, .thrown e) => (s1, .thrown e)
      | (s1, .ok _) =>
        match removeDoubleSpendsF env s1 tx with
        | (s2, .thrown e) => (s2, .thrown e)
        | (s2, .ok _) =>
          if (mget s2.waiting tx.hash).isSome then
            match handleOrphansF env fuel s2 tx with
            | (s3, .thrown e) => (s3, .thrown e)
            | (s3, .ok _) => addBlockLoop env fuel rest s3
          else addBlockLoop env fuel rest s2
    | some entry =>
      match removeEntryF s entry with
      | (s1, .thrown e) => (s1, .thrown e)
      | (s1, .ok _) => addBlockLoop env fuel rest (pushEv s1 (.confirmed tx.hash))

/-- `_addBlock(block, txs)` — with an empty pool only the tip moves;
otherwise remove the confirmed entries (promoting orphans of just-mined
parents), then reset the reject filter and set the tip. The fee estimator
and cache are not modelled. -/
def addBlockF (env : Env) (fuel : Nat) (s : St) (block : Block)
    (txs : List TX) : St × Res Unit :=
  if s.map.isEmpty then ({ s with tip := block.hash }, .ok ())
  else
    match addBlockLoop env fuel ((txs.drop 1).reverse) s with
    | (s1, .thrown e) => (s1, .thrown e)
    | (s1, .ok _) => ({ s1 with rejects := [], tip := block.hash }, .ok ())

/-- The per-transaction loop of `_removeBlock`: replay each absent
non-coinbase transaction through `insertTX(tx, -1)`; EVERY exception is
caught, emitted as an `error` event, and the loop continues. -/
def removeBlockLoop (env : Env) (fuel : Nat) : List TX → St → St
  | [], s => s
  | tx :: rest, s =>
    if hasEntry s tx.hash then removeBlockLoop env fuel rest s
    else
      match insertTXF env fuel s tx (-1) with
      | (s1, .thrown e) => removeBlockLoop env fuel rest (pushEv s1 (.error e))
      | (s1, .ok _) =>
        removeBlockLoop env fuel rest (pushEv s1 (.unconfirmed tx.hash))

/-- `_removeBlock(block, txs)` — with an empty pool only the tip moves;
otherwise reinstate the non-coinbase transactions absent from the pool,
then reset the reject filter and point the tip at the previous block. -/
def removeBlockF (env : Env) (fuel : Nat) (s : St) (block : Block)
    (txs : List TX) : St × Res Unit :=
  if s.map.isEmpty then ({ s with tip := block.prevBlock }, .ok ())
  else
    let s1 := removeBlockLoop env fuel (txs.drop 1) s
    ({ s1 with rejects := [], tip := block.prevBlock }, .ok ())

/-! ## C1 — limitSize return value -/

/-- The entry admitted by the concrete examples: spends chain output (50, 0). -/
def txT1 : TX :=
  { TX0 with hash := 3, inputs := [⟨⟨50, 0⟩, 4294967295⟩] }

/-- `txT1` wrapped as an entry at height 5. -/
def entryT1 : Entry := MempoolEntry.fromTX env0 txT1 5

/-- A pool that already contains `txT1` (its input is in the spent map). -/
def sC1 : St := (trackEntryF (St.initial 99) entryT1).1

lemma limitSizeF_small (env : Env) (s : St) (added : Hash)
    (hsz : s.size ≤ env.opts.maxSize) :
    limitSizeF env s added = (s, .ok false) := by
  unfold limitSizeF
  rw [if_pos hsz]

lemma limitSizeF_shape (env : Env) (s : St) (added : Hash)
    (hsz : ¬ s.size ≤ env.opts.maxSize) :
    ∀ s' r, limitSizeF env s added = (s', .ok r) → r = ! hasEntry s' added := by
  unfold limitSizeF
  rw [if_neg hsz]
  rcases hE : limitExpiryLoop env (s.map.map Prod.snd) s [] with ⟨s1, queue, r1⟩
  cases r1 with
  | thrown e =>
    intro s' r h
    dsimp only at h
    exact absurd (congrArg Prod.snd h) (by simp)
  | ok u =>
    dsimp only
    by_cases hth : s1.size ≤ env.opts.maxSize - env.opts.maxSize / 10
    · intro s' r h
      simp only [if_pos hth] at h
      have h1 := congrArg Prod.fst h
      have h2 := congrArg Prod.snd h
      simp only at h1 h2
      cases h2
      rw [← h1]
    · intro s' r h
      simp only [if_neg hth] at h
      rcases hH : limitHeapLoop env (env.opts.maxSize - env.opts.maxSize / 10)
          queue.length queue s1 with ⟨s2, r2⟩
      rw [hH] at h
      cases r2 with
      | thrown e => simp at h
      | ok u2 =>
        have h1 := congrArg Prod.fst h
        have h2 := congrArg Prod.snd h
        simp only at h1 h2
        cases h2
        rw [← h1]

/-- C1: for a hash `added` present in the pool when `limitSize(added)` is
called, a normal return yields `true` exactly when no entry with that hash
remains in the pool map afterwards; in particular the call returns `false`,
leaving the state untouched, whenever `size ≤ maxSize` on entry. -/
theorem limitSize_true_iff_evicted (env : Env) (s : St) (added : Hash)
    (hin : hasEntry s added = true) :
    ∀ s' r, limitSizeF env s added = (s', .ok r) →
      ((r = true ↔ hasEntry s' added = false) ∧
        (s.size ≤ env.opts.maxSize → s' = s ∧ r = false)) := by
  intro s' r h
  by_cases hsz : s.size ≤ env.opts.maxSize
  · rw [limitSizeF_small env s added hsz] at h
    have h1 := congrArg Prod.fst h
    have h2 := congrArg Prod.snd h
    simp only at h1 h2
    cases h2
    constructor
    · constructor
      · intro hc
        exact absurd hc (by simp)
      · intro hc
        rw [← h1] at hc
        rw [hin] at hc
        exact absurd hc (by simp)
    · intro _
      exact ⟨h1.symm, rfl⟩
  · have hr := limitSizeF_shape env s added hsz s' r h
    constructor
    · rw [hr]
      cases hE : hasEntry s' added <;> simp [hE]
    · intro hc
      exact absurd hc hsz

/-- C1 (witness): on a small pool below `maxSize`, `limitSize` returns
`false` and the just-added entry is still present. -/
theorem limitSize_true_iff_evicted_witness :
    hasEntry sC1 3 = true ∧
    ((false = true ↔ hasEntry sC1 3 = false) ∧
      (sC1.size ≤ env0.opts.maxSize → sC1 = sC1 ∧ false = false)) := by
  refine ⟨by decide, ?_⟩
  exact limitSize_true_iff_evicted env0 sC1 3 (by decide) sC1 false
    (limitSizeF_small env0 sC1 3 (by decide))

/-! ## C4 — double-spend rejection -/

/-- C4 (amended): for a transaction that passes the checks preceding the
double-spend test (not mutable, sane, not coinbase, standardness, finality,
not already known, no unspent chain coins) and has an input whose outpoint is
in the spent map, `insertTX` emits `conflict`, throws the
`duplicate`/`bad-txns-inputs-spent` VerifyError, and leaves the pool map,
spent map, orphan map and size unchanged. -/
theorem insertTX_doubleSpend (env : Env) (fuel : Nat) (s : St) (tx : TX) (id : Int)
    (h0 : ¬ tx.mutable = true)
    (h1 : (tx.checkSanity env.chainHeight).1 = true)
    (h2 : ¬ tx.coinbase = true)
    (h3 : ¬ (env.opts.requireStandard = true ∧ ¬ env.hasCSV = true ∧ 2 ≤ tx.version))
    (h4 : ¬ (¬ env.chainHasWitness = true ∧ ¬ env.opts.prematureWitness = true ∧
      tx.witness = true))
    (h5 : ¬ (env.opts.requireStandard = true ∧ ¬ (tx.checkStandard).1 = true))
    (h6 : ¬ (env.opts.requireStandard = true ∧ ¬ env.opts.replaceByFee = true ∧
      tx.rbf = true))
    (h7 : env.verifyFinal tx = true)
    (h8 : existsTX env s tx.hash = false)
    (h9 : env.hasCoins tx = false)
    (hds : isDoubleSpend s tx = true) :
    insertTXF env (fuel + 1) s tx id =
      (pushEv s (.conflict tx.hash),
        .thrown (.verify tx.hash .duplicate "bad-txns-inputs-spent" 0 false)) ∧
    (pushEv s (.conflict tx.hash)).map = s.map ∧
    (pushEv s (.conflict tx.hash)).spents = s.spents ∧
    (pushEv s (.conflict tx.hash)).orphans = s.orphans ∧
    (pushEv s (.conflict tx.hash)).size = s.size := by
  refine ⟨?_, rfl, rfl, rfl, rfl⟩
  show insertTXP (insertTXF env fuel) env s tx id = _
  unfold insertTXP
  rw [if_neg h0, if_neg (by rw [h1]; simp), if_neg h2, if_neg h3, if_neg h4,
    if_neg h5, if_neg h6, if_neg (by rw [h7]; simp),
    if_neg (by rw [h8]; simp), if_neg (by rw [h9]; simp), if_pos hds]

/-- C4 (counterexample): resubmitting an already-admitted transaction — all
of its inputs are in the spent map — throws `alreadyknown`
(`txn-already-in-mempool`) from the earlier known-ness check, with no
`conflict` event and no `duplicate` error, refuting the unconditional claim. -/
theorem insertTX_doubleSpend_ce :
    isDoubleSpend sC1 txT1 = true ∧
    insertTXF env0 1 sC1 txT1 1 =
      (sC1, .thrown (.verify txT1.hash .alreadyknown "txn-already-in-mempool" 0 false)) ∧
    ErrCode.alreadyknown ≠ ErrCode.duplicate ∧
    sC1.events = [] := by
  refine ⟨by decide, rfl, by decide, rfl⟩

/-- A fresh transaction spending the same outpoint as `txT1`. -/
def txDS : TX :=
  { TX0 with hash := 4, inputs := [⟨⟨50, 0⟩, 4294967295⟩] }

/-- C4 (witness): a fresh double-spender of the same outpoint as `txT1`
passes the earlier checks and is rejected on the double-spend path with the
`conflict` event emitted. -/
theorem insertTX_doubleSpend_witness :
    isDoubleSpend sC1 txDS = true ∧
    insertTXF env0 1 sC1 txDS 1 =
      (pushEv sC1 (.conflict txDS.hash),
        .thrown (.verify txDS.hash .duplicate "bad-txns-inputs-spent" 0 false)) := by
  refine ⟨by decide, ?_⟩
  exact (insertTX_doubleSpend env0 0 sC1 txDS 1 (by decide) rfl (by decide)
    (by intro hc; exact absurd hc.1 (by decide))
    (by intro hc; exact absurd hc.1 (by decide))
    (by intro hc; exact absurd hc.1 (by decide))
    (by intro hc; exact absurd hc.1 (by decide))
    rfl rfl rfl (by decide)).1

/-! ## C9 — reject filter population in `_addTX` -/

/-- C9: when `insertTX` throws, `_addTX` rethrows the error and adds
`tx.hash` to the reject filter exactly when the error is a `VerifyError`,
the transaction has no witness data, and the error is not marked malleated;
otherwise the filter is untouched. -/
theorem addTX_reject_filter (env : Env) (fuel : Nat) (s : St) (tx : TX)
    (id : Int) (s1 : St) (e : Err)
    (h : insertTXF env fuel s tx id = (s1, .thrown e)) :
    addTXF env fuel s tx id =
      (if e.isVerifyError ∧ ¬ tx.witness ∧ ¬ e.isMalleated then
        rejectsAdd s1 tx.hash else s1, .thrown e) := by
  unfold addTXF
  rw [h]

/-- C9 (witness): the concrete `alreadyknown` rejection of
`insertTX_doubleSpend_ce` is a non-witness, non-malleated VerifyError, so
`_addTX` adds the hash to the reject filter and rethrows. -/
theorem addTX_reject_filter_witness :
    addTXF env0 1 sC1 txT1 1 =
      (rejectsAdd sC1 txT1.hash,
        .thrown (.verify txT1.hash .alreadyknown "txn-already-in-mempool" 0 false)) := by
  rw [addTX_reject_filter env0 1 sC1 txT1 1 sC1
    (.verify txT1.hash .alreadyknown "txn-already-in-mempool" 0 false) rfl]
  rw [if_pos (by refine ⟨rfl, ?_, ?_⟩ <;> decide)]

/-! ## C6 — `_addBlock` and the reject filter -/

/-- The block used by the concrete block-connection examples. -/
def blkB : Block := ⟨123, 99, 6⟩

/-- A state with an empty pool map but a non-empty reject filter. -/
def stC6 : St := { St.initial 0 with rejects := [7] }

/-- C6 (amended): when the pool map is non-empty at the start of the call,
a normal completion of `_addBlock(block, txs)` leaves the reject filter
reset and `tip = block.hash`; but when the pool map is empty, the early
return sets only the tip and the reject filter is left as it was. -/
theorem addBlock_reset_and_tip (env : Env) (fuel : Nat) (s : St) (b : Block)
    (txs : List TX) :
    (s.map.isEmpty = true →
      addBlockF env fuel s b txs = ({ s with tip := b.hash }, .ok ())) ∧
    (s.map.isEmpty = false → ∀ s', addBlockF env fuel s b txs = (s', .ok ()) →
      s'.rejects = [] ∧ s'.tip = b.hash) := by
  constructor
  · intro h
    unfold addBlockF
    rw [if_pos h]
  · intro h s' hEq
    unfold addBlockF at hEq
    rw [if_neg (by rw [h]; simp)] at hEq
    rcases hL : addBlockLoop env fuel ((txs.drop 1).reverse) s with ⟨s1, r1⟩
    rw [hL] at hEq
    cases r1 with
    | thrown e => exact absurd (congrArg Prod.snd hEq) (by simp)
    | ok u =>
      have h1 := congrArg Prod.fst hEq
      simp only at h1
      rw [← h1]
      exact ⟨rfl, rfl⟩

/-- C6 (counterexample): with an empty pool map, `_addBlock` returns early
after moving the tip, leaving a non-empty reject filter intact — refuting
the "in every case" clause. -/
theorem addBlock_empty_skips_reset :
    stC6.map.isEmpty = true ∧
    addBlockF env0 1 stC6 blkB [] = ({ stC6 with tip := blkB.hash }, .ok ()) ∧
    (addBlockF env0 1 stC6 blkB []).1.rejects = [7] ∧
    ([7] : List Hash) ≠ [] :=
  ⟨rfl, rfl, rfl, by decide⟩

/-- C6 (witness): both branches at concrete states — the empty-map early
return on `stC6`, and reset-plus-tip after a normal completion on the
non-empty pool `sC1`. -/
theorem addBlock_reset_and_tip_witness :
    addBlockF env0 1 stC6 blkB [] = ({ stC6 with tip := blkB.hash }, .ok ()) ∧
    ((addBlockF env0 1 sC1 blkB []).1.rejects = [] ∧
      (addBlockF env0 1 sC1 blkB []).1.tip = blkB.hash) := by
  constructor
  · exact (addBlock_reset_and_tip env0 1 stC6 blkB []).1 rfl
  · exact (addBlock_reset_and_tip env0 1 sC1 blkB []).2 (by decide)
      (addBlockF env0 1 sC1 blkB []).1 (by rfl)

/-! ## C8 — error handling in orphan replay and block disconnect -/

lemma removeOrphanWaiting_no_verify (h : Hash) :
    ∀ prevs w w1 e, removeOrphanWaiting h prevs w = (w1, .thrown e) →
      e.isVerifyError = false := by
  intro prevs
  induction prevs with
  | nil =>
    intro w w1 e hEq
    exact absurd (congrArg Prod.snd hEq) (by simp [removeOrphanWaiting])
  | cons prev rest ih =>
    intro w w1 e hEq
    rw [removeOrphanWaiting] at hEq
    cases hm : mget w prev with
    | none =>
      rw [hm] at hEq
      exact ih _ _ _ hEq
    | some set =>
      rw [hm] at hEq
      dsimp only at hEq
      by_cases hmem : h ∈ set
      · rw [if_pos hmem] at hEq
        exact ih _ _ _ hEq
      · rw [if_neg hmem] at hEq
        have h2 := congrArg Prod.snd hEq
        simp only at h2
        injection h2 with h3
        rw [← h3]
        rfl

lemma removeOrphanF_no_verify (s : St) (h : Hash) :
    ∀ s1 e, removeOrphanF s h = (s1, .thrown e) → e.isVerifyError = false := by
  intro s1 e hEq
  unfold removeOrphanF at hEq
  cases hm : mget s.orphans h with
  | none =>
    rw [hm] at hEq
    exact absurd (congrArg Prod.snd hEq) (by simp)
  | some o =>
    rw [hm] at hEq
    dsimp only at hEq
    cases ht : o.toTX with
    | none =>
      rw [ht] at hEq
      exact absurd (congrArg Prod.snd hEq) (by simp)
    | some tx =>
      rw [ht] at hEq
      dsimp only at hEq
      rcases hW : removeOrphanWaiting h tx.getPrevout s.waiting with ⟨w1, r⟩
      rw [hW] at hEq
      cases r with
      | thrown e2 =>
        dsimp only at hEq
        have h2 := congrArg Prod.snd hEq
        simp only at h2
        injection h2 with h3
        rw [← h3]
        exact removeOrphanWaiting_no_verify h tx.getPrevout s.waiting w1 e2 hW
      | ok b =>
        dsimp only at hEq
        exact absurd (congrArg Prod.snd hEq) (by simp)

lemma resolveLoop_no_verify :
    ∀ hs os acc os1 acc1 e, resolveLoop hs os acc = (os1, acc1, .thrown e) →
      e.isVerifyError = false := by
  intro hs
  induction hs with
  | nil =>
    intro os acc os1 acc1 e hEq
    exact absurd (congrArg (fun p => p.2.2) hEq) (by simp [resolveLoop])
  | cons h rest ih =>
    intro os acc os1 acc1 e hEq
    rw [resolveLoop] at hEq
    cases hm : mget os h with
    | none =>
      rw [hm] at hEq
      have h2 := congrArg (fun p => p.2.2) hEq
      simp only at h2
      injection h2 with h3
      rw [← h3]
      rfl
    | some o =>
      rw [hm] at hEq
      dsimp only at hEq
      by_cases hz : o.missing - 1 = 0
      · rw [if_pos hz] at hEq
        exact ih _ _ _ _ _ hEq
      · rw [if_neg hz] at hEq
        exact ih _ _ _ _ _ hEq

lemma resolveOrphansF_no_verify (s : St) (ph : Hash) :
    ∀ s1 e, resolveOrphansF s ph = (s1, .thrown e) → e.isVerifyError = false := by
  intro s1 e hEq
  unfold resolveOrphansF at hEq
  cases hm : mget s.waiting ph with
  | none =>
    rw [hm] at hEq
    exact absurd (congrArg Prod.snd hEq) (by simp)
  | some set =>
    rw [hm] at hEq
    dsimp only at hEq
    by_cases he : set.isEmpty = true
    · rw [if_pos he] at hEq
      have h2 := congrArg Prod.snd hEq
      simp only at h2
      injection h2 with h3
      rw [← h3]
      rfl
    · rw [if_neg he] at hEq
      rcases hR : resolveLoop set s.orphans [] with ⟨os1, acc, r⟩
      rw [hR] at hEq
      cases r with
      | thrown e2 =>
        dsimp only at hEq
        have h2 := congrArg Prod.snd hEq
        simp only at h2
        injection h2 with h3
        rw [← h3]
        exact resolveLoop_no_verify set s.orphans [] os1 acc e2 hR
      | ok u =>
        dsimp only at hEq
        exact absurd (congrArg Prod.snd hEq) (by simp)

lemma handleLoopP_no_verify
    (insertL : St → TX → Int → St × Res (Option (List Hash))) :
    ∀ resolved s s1 e, handleLoopP insertL resolved s = (s1, .thrown e) →
      e.isVerifyError = false := by
  intro resolved
  induction resolved with
  | nil =>
    intro s s1 e hEq
    exact absurd (congrArg Prod.snd hEq) (by simp [handleLoopP])
  | cons o rest ih =>
    intro s s1 e hEq
    rw [handleLoopP] at hEq
    cases ht : o.toTX with
    | none =>
      rw [ht] at hEq
      dsimp only at hEq
      exact ih _ _ _ hEq
    | some tx =>
      rw [ht] at hEq
      dsimp only at hEq
      rcases hI : insertL s tx o.id with ⟨sa, r⟩
      rw [hI] at hEq
      cases r with
      | thrown e1 =>
        dsimp only at hEq
        by_cases hv : e1.isVerifyError = true
        · rw [if_pos hv] at hEq
          exact ih _ _ _ hEq
        · rw [if_neg hv] at hEq
          have h2 := congrArg Prod.snd hEq
          simp only at h2
          injection h2 with h3
          rw [← h3]
          cases hB : e1.isVerifyError with
          | false => rfl
          | true => exact absurd hB hv
      | ok opt =>
        cases opt with
        | none =>
          dsimp only at hEq
          exact ih _ _ _ hEq
        | some lst =>
          cases lst with
          | nil =>
            dsimp only at hEq
            exact ih _ _ _ hEq
          | cons mh mt =>
            dsimp only at hEq
            rcases hR : removeOrphanF sa tx.hash with ⟨sb, r2⟩
            rw [hR] at hEq
            cases r2 with
            | thrown e2 =>
              dsimp only at hEq
              have h2 := congrArg Prod.snd hEq
              simp only at h2
              injection h2 with h3
              rw [← h3]
              exact removeOrphanF_no_verify sa tx.hash sb e2 hR
            | ok b =>
              dsimp only at hEq
              exact ih _ _ _ hEq

/-- A mutable transaction: `insertTX` rejects it with a plain assertion
error, not a VerifyError. -/
def txMut : TX := { TX0 with hash := 8, mutable := true }

/-- A parent hash with an (ill-formed) empty waiting set, to drive
`resolveOrphans` into its assertion throw. -/
def sW : St := { St.initial 0 with waiting := [(9, [])] }

/-- A parent transaction with hash 9. -/
def txP9 : TX := { TX0 with hash := 9 }

/-- C8 (amended): `handleOrphans` swallows each per-orphan VerifyError
(reject-filter update plus a `bad orphan` event, then the loop continues)
and propagates only non-VerifyErrors, so any exception escaping it is not a
VerifyError; `_removeBlock`, however, catches EVERY per-transaction
exception — VerifyError or not — emits an `error` event, continues, and
always completes normally. -/
theorem orphan_error_handling :
    (∀ env fuel s p s1 e, handleOrphansF env fuel s p = (s1, .thrown e) →
      e.isVerifyError = false) ∧
    (∀ insertL o rest tx s s1 e, o.toTX = some tx →
      insertL s tx o.id = (s1, .thrown e) → e.isVerifyError = true →
      handleLoopP insertL (o :: rest) s =
        handleLoopP insertL rest
          (pushEv (if ¬ tx.witness ∧ ¬ e.isMalleated then rejectsAdd s1 tx.hash
            else s1) (.badOrphan e o.id))) ∧
    (∀ insertL o rest tx s s1 e, o.toTX = some tx →
      insertL s tx o.id = (s1, .thrown e) → e.isVerifyError = false →
      handleLoopP insertL (o :: rest) s = (s1, .thrown e)) ∧
    (∀ env fuel tx rest s s1 e, hasEntry s tx.hash = false →
      insertTXF env fuel s tx (-1) = (s1, .thrown e) →
      removeBlockLoop env fuel (tx :: rest) s =
        removeBlockLoop env fuel rest (pushEv s1 (.error e))) ∧
    (∀ env fuel s b txs, (removeBlockF env fuel s b txs).2 = .ok ()) := by
  refine ⟨?_, ?_, ?_, ?_, ?_⟩
  · intro env fuel s p s1 e hEq
    unfold handleOrphansF handleOrphansP at hEq
    rcases hR : resolveOrphansF s p.hash with ⟨sa, r⟩
    rw [hR] at hEq
    cases r with
    | thrown e2 =>
      dsimp only at hEq
      have h2 := congrArg Prod.snd hEq
      simp only at h2
      injection h2 with h3
      rw [← h3]
      exact resolveOrphansF_no_verify s p.hash sa e2 hR
    | ok resolved =>
      dsimp only at hEq
      exact handleLoopP_no_verify (insertTXF env fuel) resolved sa s1 e hEq
  · intro insertL o rest tx s s1 e ht hI hv
    rw [handleLoopP, ht]
    dsimp only
    rw [hI]
    dsimp only
    rw [if_pos hv]
  · intro insertL o rest tx s s1 e ht hI hv
    rw [handleLoopP, ht]
    dsimp only
    rw [hI]
    dsimp only
    rw [if_neg (by rw [hv]; simp)]
  · intro env fuel tx rest s s1 e hhe hI
    rw [removeBlockLoop, if_neg (by rw [hhe]; simp), hI]
  · intro env fuel s b txs
    unfold removeBlockF
    by_cases he : s.map.isEmpty = true
    · rw [if_pos he]
    · rw [if_neg he]

/-- C8 (counterexample): connecting back a block containing a mutable
transaction makes the replaying `insertTX` throw a plain assertion error —
not a VerifyError — yet `_removeBlock` still completes normally with an
`error` event, instead of aborting as the claim requires. -/
theorem removeBlock_no_abort_ce :
    (Err.assert "Cannot add mutable TX to mempool.").isVerifyError = false ∧
    removeBlockF env0 1 sC1 blkB [TX0, txMut] =
      ({ removeBlockLoop env0 1 [txMut] sC1 with
          rejects := []
          tip := blkB.prevBlock }, .ok ()) ∧
    Ev.error (Err.assert "Cannot add mutable TX to mempool.") ∈
      (removeBlockF env0 1 sC1 blkB [TX0, txMut]).1.events := by
  refine ⟨rfl, rfl, ?_⟩
  decide

/-- C8 (witness): the amended parts at concrete inputs — a `handleOrphans`
run ending in the `resolveOrphans` assertion is reported as a
non-VerifyError; the per-transaction catch of `_removeBlock` on a mutable
transaction; and normal completion of the same `_removeBlock` call. -/
theorem orphan_error_handling_witness :
    (Err.assert "resolveOrphans: set.size > 0").isVerifyError = false ∧
    removeBlockLoop env0 1 [txMut] sC1 =
      removeBlockLoop env0 1 []
        (pushEv sC1 (.error (.assert "Cannot add mutable TX to mempool."))) ∧
    (removeBlockF env0 1 sC1 blkB [TX0, txMut]).2 = .ok () := by
  refine ⟨?_, ?_, ?_⟩
  · exact orphan_error_handling.1 env0 1 sW txP9 sW
      (.assert "resolveOrphans: set.size > 0") rfl
  · exact orphan_error_handling.2.2.2.1 env0 1 txMut [] sC1 sC1
      (.assert "Cannot add mutable TX to mempool.") (by decide) rfl
  · exact orphan_error_handling.2.2.2.2 env0 1 sC1 blkB [TX0, txMut]

/-! ## C10 — the `maybeOrphan` drop paths -/

lemma rejectsAdd_fields (s : St) (h : Hash) :
    (rejectsAdd s h).map = s.map ∧ (rejectsAdd s h).spents = s.spents ∧
      (rejectsAdd s h).orphans = s.orphans ∧
      (rejectsAdd s h).waiting = s.waiting ∧ (rejectsAdd s h).size = s.size := by
  unfold rejectsAdd
  by_cases hm : h ∈ s.rejects
  · rw [if_pos hm]
    exact ⟨rfl, rfl, rfl, rfl, rfl⟩
  · rw [if_neg hm]
    exact ⟨rfl, rfl, rfl, rfl, rfl⟩

lemma scan_inl_shape (s : St) (view : CoinView) (txh : Hash) :
    ∀ inputs hashes p, maybeOrphanScan s view txh inputs hashes = .inl p →
      p = (rejectsAdd s txh, []) := by
  intro inputs
  induction inputs with
  | nil =>
    intro hashes p hEq
    simp [maybeOrphanScan] at hEq
  | cons inp rest ih =>
    intro hashes p hEq
    rw [maybeOrphanScan] at hEq
    by_cases hv : inp.prevout ∈ view
    · rw [if_pos hv] at hEq
      exact ih _ _ hEq
    · rw [if_neg hv] at hEq
      by_cases hr : hasReject s inp.prevout.hash = true
      · rw [if_pos hr] at hEq
        injection hEq with h1
        exact h1.symm
      · rw [if_neg hr] at hEq
        by_cases he : hasEntry s inp.prevout.hash = true
        · rw [if_pos he] at hEq
          injection hEq with h1
          exact h1.symm
        · rw [if_neg he] at hEq
          exact ih _ _ hEq

lemma scan_flagged (s : St) (view : CoinView) (txh : Hash) :
    ∀ inputs, (∃ inp ∈ inputs, inp.prevout ∉ view ∧
        (hasReject s inp.prevout.hash = true ∨ hasEntry s inp.prevout.hash = true)) →
      ∀ hashes, maybeOrphanScan s view txh inputs hashes =
        .inl (rejectsAdd s txh, []) := by
  intro inputs
  induction inputs with
  | nil =>
    rintro ⟨inp, hmem, _⟩
    exact absurd hmem (by simp)
  | cons x rest ih =>
    rintro ⟨inp, hmem, hnv, hflag⟩ hashes
    rw [maybeOrphanScan]
    by_cases hv : x.prevout ∈ view
    · rw [if_pos hv]
      rcases List.mem_cons.mp hmem with hx | hx
      · rw [hx] at hnv
        exact absurd hv hnv
      · exact ih ⟨inp, hx, hnv, hflag⟩ hashes
    · rw [if_neg hv]
      by_cases hr : hasReject s x.prevout.hash = true
      · rw [if_pos hr]
      · rw [if_neg hr]
        by_cases he : hasEntry s x.prevout.hash = true
        · rw [if_pos he]
        · rw [if_neg he]
          rcases List.mem_cons.mp hmem with hx | hx
          · rw [hx] at hflag
            rcases hflag with hc | hc
            · exact absurd hc hr
            · exact absurd hc he
          · exact ih ⟨inp, hx, hnv, hflag⟩ _

lemma scan_inr_keep (s : St) (view : CoinView) (txh : Hash) :
    ∀ inputs hashes h2, maybeOrphanScan s view txh inputs hashes = .inr h2 →
      hashes ≠ [] → h2 ≠ [] := by
  intro inputs
  induction inputs with
  | nil =>
    intro hashes h2 hEq hne
    rw [maybeOrphanScan] at hEq
    injection hEq with h1
    rw [← h1]
    exact hne
  | cons x rest ih =>
    intro hashes h2 hEq hne
    rw [maybeOrphanScan] at hEq
    by_cases hv : x.prevout ∈ view
    · rw [if_pos hv] at hEq
      exact ih _ _ hEq hne
    · rw [if_neg hv] at hEq
      by_cases hr : hasReject s x.prevout.hash = true
      · rw [if_pos hr] at hEq
        exact absurd hEq (by simp)
      · rw [if_neg hr] at hEq
        by_cases he : hasEntry s x.prevout.hash = true
        · rw [if_pos he] at hEq
          exact absurd hEq (by simp)
        · rw [if_neg he] at hEq
          refine ih _ _ hEq ?_
          by_cases hmem : x.prevout.hash ∈ hashes
          · rw [if_pos hmem]
            exact hne
          · rw [if_neg hmem]
            simp

lemma scan_inr_ne (s : St) (view : CoinView) (txh : Hash) :
    ∀ inputs hashes h2, maybeOrphanScan s view txh inputs hashes = .inr h2 →
      (∃ inp ∈ inputs, inp.prevout ∉ view) → h2 ≠ [] := by
  intro inputs
  induction inputs with
  | nil =>
    rintro hashes h2 hEq ⟨inp, hmem, _⟩
    exact absurd hmem (by simp)
  | cons x rest ih =>
    rintro hashes h2 hEq ⟨inp, hmem, hnv⟩
    rw [maybeOrphanScan] at hEq
    by_cases hv : x.prevout ∈ view
    · rw [if_pos hv] at hEq
      rcases List.mem_cons.mp hmem with hx | hx
      · rw [hx] at hnv
        exact absurd hv hnv
      · exact ih _ _ hEq ⟨inp, hx, hnv⟩
    · rw [if_neg hv] at hEq
      by_cases hr : hasReject s x.prevout.hash = true
      · rw [if_pos hr] at hEq
        exact absurd hEq (by simp)
      · rw [if_neg hr] at hEq
        by_cases he : hasEntry s x.prevout.hash = true
        · rw [if_pos he] at hEq
          exact absurd hEq (by simp)
        · rw [if_neg he] at hEq
          refine scan_inr_keep s view txh rest _ _ hEq ?_
          by_cases hmem2 : x.prevout.hash ∈ hashes
          · rw [if_pos hmem2]
            intro hc
            rw [hc] at hmem2
            exact absurd hmem2 (by simp)
          · rw [if_neg hmem2]
            simp

lemma maybeOrphan_drop (env : Env) (s : St) (tx : TX) (view : CoinView)
    (id : Int)
    (hex : ∃ inp ∈ tx.inputs, inp.prevout ∉ view)
    (hdrop : (∃ inp ∈ tx.inputs, inp.prevout ∉ view ∧
        (hasReject s inp.prevout.hash = true ∨ hasEntry s inp.prevout.hash = true)) ∨
      MAX_TX_WEIGHT < tx.weight ∨ env.opts.maxOrphans = 0) :
    ∃ s1, maybeOrphanF env s tx view id = (s1, .ok (some [])) ∧
      s1.map = s.map ∧ s1.spents = s.spents ∧ s1.orphans = s.orphans ∧
      s1.waiting = s.waiting ∧ s1.size = s.size := by
  unfold maybeOrphanF
  rcases hs : maybeOrphanScan s view tx.hash tx.inputs [] with p | hashes
  · have hp := scan_inl_shape s view tx.hash tx.inputs [] p hs
    rw [hp]
    exact ⟨rejectsAdd s tx.hash, rfl, rejectsAdd_fields s tx.hash⟩
  · have hne := scan_inr_ne s view tx.hash tx.inputs [] hashes hs hex
    dsimp only
    rw [if_neg (by intro hc; exact hne (List.isEmpty_iff.mp hc))]
    rcases hdrop with hflag | hw | hm0
    · exact absurd hs (by rw [scan_flagged s view tx.hash tx.inputs hflag []]; simp)
    · rw [if_pos hw]
      by_cases hwit : tx.witness = true
      · rw [if_pos hwit]
        exact ⟨s, rfl, rfl, rfl, rfl, rfl, rfl⟩
      · rw [if_neg hwit]
        exact ⟨rejectsAdd s tx.hash, rfl, rejectsAdd_fields s tx.hash⟩
    · by_cases hw2 : MAX_TX_WEIGHT < tx.weight
      · rw [if_pos hw2]
        by_cases hwit : tx.witness = true
        · rw [if_pos hwit]
          exact ⟨s, rfl, rfl, rfl, rfl, rfl, rfl⟩
        · rw [if_neg hwit]
          exact ⟨rejectsAdd s tx.hash, rfl, rejectsAdd_fields s tx.hash⟩
      · rw [if_neg hw2, if_pos hm0]
        exact ⟨s, rfl, rfl, rfl, rfl, rfl, rfl⟩

/-- C10 (confirmed): when a transaction passing the pre-orphan pipeline
checks has an unresolved input and hits a `maybeOrphan` drop path (a missing
parent rejected or spent in-pool, excessive weight, or zero orphan
capacity), `insertTX` returns an empty "missing" array — not null — without
throwing, and the transaction is stored in neither the pool map nor the
orphan map. -/
theorem insertTX_orphan_drop (env : Env) (fuel : Nat) (s : St) (tx : TX)
    (id : Int)
    (h0 : ¬ tx.mutable = true)
    (h1 : (tx.checkSanity env.chainHeight).1 = true)
    (h2 : ¬ tx.coinbase = true)
    (h3 : ¬ (env.opts.requireStandard = true ∧ ¬ env.hasCSV = true ∧ 2 ≤ tx.version))
    (h4 : ¬ (¬ env.chainHasWitness = true ∧ ¬ env.opts.prematureWitness = true ∧
      tx.witness = true))
    (h5 : ¬ (env.opts.requireStandard = true ∧ ¬ (tx.checkStandard).1 = true))
    (h6 : ¬ (env.opts.requireStandard = true ∧ ¬ env.opts.replaceByFee = true ∧
      tx.rbf = true))
    (h7 : env.verifyFinal tx = true)
    (h8 : existsTX env s tx.hash = false)
    (h9 : env.hasCoins tx = false)
    (hnd : isDoubleSpend s tx = false)
    (hex : ∃ inp ∈ tx.inputs, inp.prevout ∉ getCoinViewF env s tx)
    (hdrop : (∃ inp ∈ tx.inputs, inp.prevout ∉ getCoinViewF env s tx ∧
        (hasReject s inp.prevout.hash = true ∨ hasEntry s inp.prevout.hash = true)) ∨
      MAX_TX_WEIGHT < tx.weight ∨ env.opts.maxOrphans = 0) :
    ∃ s1, insertTXF env (fuel + 1) s tx id = (s1, .ok (some [])) ∧
      s1.map = s.map ∧ s1.orphans = s.orphans ∧ s1.waiting = s.waiting ∧
      s1.size = s.size ∧
      hasEntry s1 tx.hash = false ∧ hasOrphan s1 tx.hash = false := by
  obtain ⟨s1, hM, hmap, hsp, horph, hwait, hsz⟩ :=
    maybeOrphan_drop env s tx (getCoinViewF env s tx) id hex hdrop
  refine ⟨s1, ?_, hmap, horph, hwait, hsz, ?_, ?_⟩
  · show insertTXP (insertTXF env fuel) env s tx id = _
    unfold insertTXP
    rw [if_neg h0, if_neg (by rw [h1]; simp), if_neg h2, if_neg h3, if_neg h4,
      if_neg h5, if_neg h6, if_neg (by rw [h7]; simp),
      if_neg (by rw [h8]; simp), if_neg (by rw [h9]; simp),
      if_neg (by rw [hnd]; simp)]
    dsimp only
    rw [hM]
  · rw [hasEntry, hmap]
    have hpe : hasEntry s tx.hash = false := by
      have := h8
      rw [existsTX] at this
      simp only [Bool.or_eq_false_iff] at this
      exact this.2
    rw [hasEntry] at hpe
    exact hpe
  · rw [hasOrphan, horph]
    have hpo : hasOrphan s tx.hash = false := by
      have := h8
      rw [existsTX] at this
      simp only [Bool.or_eq_false_iff] at this
      exact this.1.2
    rw [hasOrphan] at hpo
    exact hpo

/-- The environment for the orphan-drop witness: outpoints of transaction 60
are unknown to the chain and the orphan capacity is zero. -/
def envC10 : Env :=
  { env0 with
      opts := { Options0 with maxOrphans := 0 }
      readCoin := fun o => decide ¬ o.hash = 60 }

/-- A transaction whose single input references the unknown parent 60. -/
def txOrf : TX :=
  { TX0 with hash := 11, inputs := [⟨⟨60, 0⟩, 4294967295⟩] }

/-- C10 (witness): with zero orphan capacity, admitting `txOrf` into an
empty pool returns `some []` and stores nothing. -/
theorem insertTX_orphan_drop_witness :
    ∃ s1, insertTXF envC10 1 (St.initial 0) txOrf 1 = (s1, .ok (some [])) ∧
      s1.map = (St.initial 0).map ∧ s1.orphans = (St.initial 0).orphans ∧
      s1.waiting = (St.initial 0).waiting ∧ s1.size = (St.initial 0).size ∧
      hasEntry s1 txOrf.hash = false ∧ hasOrphan s1 txOrf.hash = false := by
  exact insertTX_orphan_drop envC10 0 (St.initial 0) txOrf 1 (by decide) rfl
    (by decide)
    (by intro hc; exact absurd hc.1 (by decide))
    (by intro hc; exact absurd hc.1 (by decide))
    (by intro hc; exact absurd hc.1 (by decide))
    (by intro hc; exact absurd hc.1 (by decide))
    rfl rfl rfl (by decide)
    (by decide)
    (Or.inr (Or.inr (by decide)))

/-! ## C7 — heights of entries created by `_removeBlock` -/

lemma mget_mset {κ α : Type} [DecidableEq κ] (m : List (κ × α)) (k : κ) (v : α)
    (h : κ) :
    mget (mset m k v) h = if h = k then some v else mget m h := by
  induction m with
  | nil =>
    simp only [mset, mget]
    by_cases hh : h = k
    · rw [if_pos hh, if_pos hh.symm]
    · rw [if_neg hh, if_neg (fun hc => hh hc.symm)]
  | cons p rest ih =>
    obtain ⟨k1, w⟩ := p
    simp only [mset]
    by_cases hk : k1 = k
    · subst hk
      rw [if_pos rfl]
      simp only [mget]
      by_cases hh : k1 = h
      · rw [if_pos hh, if_pos hh.symm]
      · rw [if_neg hh, if_neg (fun hc => hh hc.symm), if_neg hh]
    · rw [if_neg hk]
      simp only [mget]
      by_cases hh : k1 = h
      · rw [if_pos hh, if_neg (fun hc => hk (hh.trans hc)), if_pos hh]
      · rw [if_neg hh, if_neg hh]
        exact ih

lemma mget_mdel {κ α : Type} [DecidableEq κ] (m : List (κ × α)) (k : κ) (h : κ) :
    mget (mdel m k) h = if h = k then none else mget m h := by
  induction m with
  | nil =>
    simp only [mdel, mget]
    by_cases hh : h = k
    · rw [if_pos hh]
    · rw [if_neg hh]
  | cons p rest ih =>
    obtain ⟨k1, w⟩ := p
    simp only [mdel]
    by_cases hk : k1 = k
    · subst hk
      rw [if_pos rfl, ih]
      simp only [mget]
      by_cases hh : h = k1
      · rw [if_pos hh, if_pos hh]
      · rw [if_neg hh, if_neg hh, if_neg (fun hc => hh hc.symm)]
    · rw [if_neg hk]
      simp only [mget]
      by_cases hh : k1 = h
      · rw [if_pos hh, if_neg (fun hc => hk (hh.trans hc)), if_pos hh]
      · rw [if_neg hh, if_neg hh]
        exact ih

/-- Heights of map entries relative to a starting map: every entry either
existed before with the same height, or carries the distinguished height
`H`. -/
def HPres (H : Int) (m m1 : List (Hash × Entry)) : Prop :=
  ∀ h e1, mget m1 h = some e1 →
    (∃ e, mget m h = some e ∧ e1.height = e.height) ∨ e1.height = H

lemma HPres_refl (H : Int) (m : List (Hash × Entry)) : HPres H m m := by
  intro h e1 hg
  exact Or.inl ⟨e1, hg, rfl⟩

lemma HPres_of_eq (H : Int) (m m1 : List (Hash × Entry)) (he : m1 = m) :
    HPres H m m1 := by
  rw [he]
  exact HPres_refl H m

lemma HPres_trans (H : Int) (m1 m2 m3 : List (Hash × Entry))
    (h12 : HPres H m1 m2) (h23 : HPres H m2 m3) : HPres H m1 m3 := by
  intro h e3 hg
  rcases h23 h e3 hg with ⟨e2, hg2, hh2⟩ | hh
  · rcases h12 h e2 hg2 with ⟨e1, hg1, hh1⟩ | hh
    · exact Or.inl ⟨e1, hg1, hh2.trans hh1⟩
    · exact Or.inr (hh2.trans hh)
  · exact Or.inr hh

lemma HPres_mdel (H : Int) (m : List (Hash × Entry)) (k : Hash) :
    HPres H m (mdel m k) := by
  intro h e1 hg
  rw [mget_mdel] at hg
  by_cases hh : h = k
  · rw [if_pos hh] at hg
    exact absurd hg (by simp)
  · rw [if_neg hh] at hg
    exact Or.inl ⟨e1, hg, rfl⟩

lemma HPres_mset (H : Int) (m : List (Hash × Entry)) (k : Hash) (e : Entry)
    (he : e.height = H) : HPres H m (mset m k e) := by
  intro h e1 hg
  rw [mget_mset] at hg
  by_cases hh : h = k
  · rw [if_pos hh] at hg
    injection hg with hg2
    exact Or.inr (hg2 ▸ he)
  · rw [if_neg hh] at hg
    exact Or.inl ⟨e1, hg, rfl⟩

lemma HPres_mupd (H : Int) (m : List (Hash × Entry)) (k : Hash)
    (f : Entry → Entry) (hf : ∀ p, (f p).height = p.height) :
    HPres H m (mupd m k f) := by
  intro h e1 hg
  rw [mget_mupd] at hg
  by_cases hh : h = k
  · rw [if_pos hh] at hg
    cases hp : mget m h with
    | none =>
      rw [hp] at hg
      exact absurd hg (by simp)
    | some p =>
      rw [hp] at hg
      simp only [Option.map] at hg
      injection hg with hg2
      refine Or.inl ⟨p, rfl, ?_⟩
      rw [← hg2]
      exact hf p
  · rw [if_neg hh] at hg
    exact Or.inl ⟨e1, hg, rfl⟩

lemma ancLoop_HPres (H : Int) (maxA : Nat) (upd : Entry → Entry)
    (hupd : ∀ p, (upd p).height = p.height)
    (descend : List Input → Finset Hash → List (Hash × Entry) →
      Finset Hash × List (Hash × Entry))
    (hdesc : ∀ inputs set m, HPres H m (descend inputs set m).2) :
    ∀ inputs set m, HPres H m (ancLoop maxA upd descend inputs set m).2 := by
  intro inputs
  induction inputs with
  | nil =>
    intro set m
    rw [ancLoop]
    exact HPres_refl H m
  | cons inp rest ih =>
    intro set m
    rw [ancLoop]
    cases hm : mget m inp.prevout.hash with
    | none => exact ih set m
    | some parent =>
      try dsimp only
      by_cases hmem : inp.prevout.hash ∈ set
      · rw [if_pos hmem]
        exact ih set m
      · rw [if_neg hmem]
        try dsimp only
        have hstep : HPres H m (mupd m inp.prevout.hash upd) :=
          HPres_mupd H m inp.prevout.hash upd hupd
        by_cases hc1 : maxA < (insert inp.prevout.hash set).card
        · rw [if_pos hc1]
          exact hstep
        · rw [if_neg hc1]
          try dsimp only
          have hdown : HPres H m
              (descend parent.tx.inputs (insert inp.prevout.hash set)
                (mupd m inp.prevout.hash upd)).2 :=
            HPres_trans H _ _ _ hstep (hdesc _ _ _)
          by_cases hc2 : maxA <
              (descend parent.tx.inputs (insert inp.prevout.hash set)
                (mupd m inp.prevout.hash upd)).1.card
          · rw [if_pos hc2]
            exact hdown
          · rw [if_neg hc2]
            exact HPres_trans H _ _ _ hdown (ih _ _)

lemma ancGo_HPres (H : Int) (maxA : Nat) (upd : Entry → Entry)
    (hupd : ∀ p, (upd p).height = p.height) :
    ∀ fuel inputs set m, HPres H m (ancGo maxA upd fuel inputs set m).2 := by
  intro fuel
  induction fuel with
  | zero =>
    exact ancLoop_HPres H maxA upd hupd _ (fun _ _ m => HPres_refl H m)
  | succ f ih =>
    exact ancLoop_HPres H maxA upd hupd _ (fun inputs set m => ih inputs set m)

lemma updateAncestorsF_HPres (H : Int) (maxA : Nat) (s : St) (e : Entry)
    (f : Entry → Entry → Entry) (hf : ∀ p c, (f p c).height = p.height) :
    HPres H s.map (updateAncestorsF maxA s e f).map := by
  unfold updateAncestorsF
  exact ancGo_HPres H maxA (fun p => f p e) (fun p => hf p e) (maxA + 1)
    e.tx.inputs ∅ s.map

lemma trackEntryF_HPres (H : Int) (s : St) (e : Entry) (he : e.height = H) :
    HPres H s.map ((trackEntryF s e).1).map := by
  unfold trackEntryF
  by_cases h1 : hasEntry s e.tx.hash = true
  · rw [if_pos h1]
    exact HPres_refl H s.map
  · rw [if_neg h1]
    by_cases h2 : e.tx.coinbase = true
    · rw [if_pos h2]
      exact HPres_mset H s.map e.tx.hash e he
    · rw [if_neg h2]
      exact HPres_mset H s.map e.tx.hash e he

lemma untrackEntryF_HPres (H : Int) (s : St) (e : Entry) :
    HPres H s.map ((untrackEntryF s e).1).map := by
  unfold untrackEntryF
  by_cases h1 : ¬ hasEntry s e.tx.hash = true
  · rw [if_pos h1]
    exact HPres_refl H s.map
  · rw [if_neg h1]
    by_cases h2 : e.tx.coinbase = true
    · rw [if_pos h2]
      exact HPres_mdel H s.map e.tx.hash
    · rw [if_neg h2]
      exact HPres_mdel H s.map e.tx.hash

lemma removeOrphanF_map (s : St) (h : Hash) :
    ((removeOrphanF s h).1).map = s.map := by
  unfold removeOrphanF
  cases hm : mget s.orphans h with
  | none => rfl
  | some o =>
    dsimp only
    cases ht : o.toTX with
    | none => rfl
    | some tx =>
      dsimp only
      rcases hW : removeOrphanWaiting h tx.getPrevout s.waiting with ⟨w1, r⟩
      cases r with
      | thrown e => rfl
      | ok u => rfl

lemma resolveOrphansF_map (s : St) (ph : Hash) :
    ((resolveOrphansF s ph).1).map = s.map := by
  unfold resolveOrphansF
  cases hm : mget s.waiting ph with
  | none => rfl
  | some set =>
    dsimp only
    by_cases he : set.isEmpty = true
    · rw [if_pos he]
    · rw [if_neg he]
      rcases hR : resolveLoop set s.orphans [] with ⟨os1, acc, r⟩
      cases r with
      | thrown e => rfl
      | ok u => rfl

lemma limitOrphansF_map (env : Env) (s : St) :
    ((limitOrphansF env s).1).map = s.map := by
  unfold limitOrphansF
  by_cases hlt : s.orphans.length < env.opts.maxOrphans
  · rw [if_pos hlt]
  · rw [if_neg hlt]
    cases hp : limitOrphansPick s.orphans (env.randomRange 0 s.orphans.length) with
    | none => rfl
    | some h =>
      dsimp only
      rcases hr : removeOrphanF s h with ⟨s1, r⟩
      have hmap := removeOrphanF_map s h
      rw [hr] at hmap
      cases r with
      | thrown e => exact hmap
      | ok b => exact hmap

lemma maybeOrphanF_map (env : Env) (s : St) (tx : TX) (view : CoinView)
    (id : Int) :
    ((maybeOrphanF env s tx view id).1).map = s.map := by
  unfold maybeOrphanF
  cases hs : maybeOrphanScan s view tx.hash tx.inputs [] with
  | inl p =>
    have hp := scan_inl_shape s view tx.hash tx.inputs [] p hs
    rw [hp]
    exact (rejectsAdd_fields s tx.hash).1
  | inr hashes =>
    try dsimp only
    by_cases he : hashes.isEmpty = true
    · rw [if_pos he]
    · rw [if_neg he]
      by_cases hw : MAX_TX_WEIGHT < tx.weight
      · rw [if_pos hw]
        by_cases hwit : tx.witness = true
        · rw [if_pos hwit]
        · rw [if_neg hwit]
          exact (rejectsAdd_fields s tx.hash).1
      · rw [if_neg hw]
        by_cases hm0 : env.opts.maxOrphans = 0
        · rw [if_pos hm0]
        · rw [if_neg hm0]
          try dsimp only
          rcases hl : limitOrphansF env s with ⟨s1, r⟩
          have hmap := limitOrphansF_map env s
          rw [hl] at hmap
          cases r with
          | thrown e => exact hmap
          | ok b => exact hmap

lemma verifyTailF_map (env : Env) (s1 : St) (entry : Entry) (limited : Bool) :
    ((verifyTailF env s1 entry limited).1).map = s1.map := by
  unfold verifyTailF
  dsimp only
  repeat' split
  all_goals rfl

lemma verifyF_map (env : Env) (s : St) (entry : Entry) (view : CoinView) :
    ((verifyF env s entry view).1).map = s.map := by
  unfold verifyF
  dsimp only
  by_cases c1 : ¬ env.verifyLocks entry.tx = true
  · rw [if_pos c1]
  · rw [if_neg c1]
    by_cases c2 : env.opts.requireStandard = true ∧ ¬ entry.tx.hasStandardInputs = true
    · rw [if_pos c2]
    · rw [if_neg c2]
      by_cases c3 : env.opts.requireStandard = true ∧ env.chainHasWitness = true ∧
          ¬ entry.tx.hasStandardWitness = true
      · rw [if_pos c3]
      · rw [if_neg c3]
        by_cases c4 : MAX_TX_SIGOPS_COST < entry.sigops
        · rw [if_pos c4]
        · rw [if_neg c4]
          by_cases c5 : env.opts.relayPriority = true ∧
              entry.fee < getMinFee entry.size env.opts.minRelay ∧
              ¬ entry.tx.isFree (env.chainHeight + 1) = true
          · rw [if_pos c5]
          · rw [if_neg c5]
            rw [verifyTailF_map]
            by_cases c6 : env.opts.limitFree = true ∧
                entry.fee < getMinFee entry.size env.opts.minRelay
            · rw [if_pos c6]
              by_cases c7 : ((env.opts.limitFreeRelay * 10 * 1000 : Nat) : ℚ) <
                  s.freeCount * ((1 : ℚ) - 1 / 600) ^ (env.now - s.lastTime)
              · rw [if_pos c7]
              · rw [if_neg c7]
            · rw [if_neg c6]

lemma removeEntryF_HPres (H : Int) (s : St) (e : Entry) :
    HPres H s.map ((removeEntryF s e).1).map := by
  unfold removeEntryF
  rcases hu : untrackEntryF s e with ⟨s1, r⟩
  have hp := untrackEntryF_HPres H s e
  rw [hu] at hp
  cases r with
  | thrown e2 => exact hp
  | ok u => exact hp

lemma removeSpLoop_HPres (H : Int)
    (lower : St → Entry → St × Res Unit)
    (hlower : ∀ s e, HPres H s.map ((lower s e).1).map) (h : Hash) :
    ∀ idxs s, HPres H s.map ((removeSpLoop lower h idxs s).1).map := by
  intro idxs
  induction idxs with
  | nil =>
    intro s
    rw [removeSpLoop]
    exact HPres_refl H s.map
  | cons i rest ih =>
    intro s
    rw [removeSpLoop]
    cases hg : getSpent s h i with
    | none => exact ih s
    | some spender =>
      dsimp only
      rcases hl : lower s spender with ⟨s1, r⟩
      have hp1 := hlower s spender
      rw [hl] at hp1
      cases r with
      | thrown e => exact hp1
      | ok u =>
        dsimp only
        rcases hr : removeEntryF s1 spender with ⟨s2, r2⟩
        have hp2 := removeEntryF_HPres H s1 spender
        rw [hr] at hp2
        cases r2 with
        | thrown e => exact HPres_trans H _ _ _ hp1 hp2
        | ok u2 =>
          exact HPres_trans H _ _ _ (HPres_trans H _ _ _ hp1 hp2) (ih s2)

lemma removeSpendersF_HPres (H : Int) :
    ∀ fuel s e, HPres H s.map ((removeSpendersF fuel s e).1).map := by
  intro fuel
  induction fuel with
  | zero =>
    intro s e
    rw [removeSpendersF]
    exact HPres_refl H s.map
  | succ f ih =>
    intro s e
    rw [removeSpendersF]
    exact removeSpLoop_HPres H (removeSpendersF f) (fun s2 e2 => ih s2 e2)
      e.tx.hash (List.range e.tx.outputsLen) s

lemma evictEntryF_HPres (H : Int) (env : Env) (s : St) (e : Entry) :
    HPres H s.map ((evictEntryF env s e).1).map := by
  unfold evictEntryF
  rcases hr : removeSpendersF (s.map.length + 1) s e with ⟨s1, r⟩
  have hp1 := removeSpendersF_HPres H (s.map.length + 1) s e
  rw [hr] at hp1
  cases r with
  | thrown e2 => exact hp1
  | ok u =>
    dsimp only
    have hp2 := updateAncestorsF_HPres H env.opts.maxAncestors s1 e removeFee
      (fun p c => rfl)
    have hp3 := removeEntryF_HPres H
      (updateAncestorsF env.opts.maxAncestors s1 e removeFee) e
    exact HPres_trans H _ _ _ hp1 (HPres_trans H _ _ _ hp2 hp3)

lemma limitExpiryLoop_HPres (H : Int) (env : Env) :
    ∀ entries s queue,
      HPres H s.map ((limitExpiryLoop env entries s queue).1).map := by
  intro entries
  induction entries with
  | nil =>
    intro s queue
    rw [limitExpiryLoop]
    exact HPres_refl H s.map
  | cons e rest ih =>
    intro s queue
    rw [limitExpiryLoop]
    by_cases h1 : ¬ hasEntry s e.tx.hash = true
    · rw [if_pos h1]
      exact ih s queue
    · rw [if_neg h1]
      by_cases h2 : hasDepends s e.tx = true
      · rw [if_pos h2]
        exact ih s queue
      · rw [if_neg h2]
        by_cases h3 : env.now < e.time + env.opts.expiryTime
        · rw [if_pos h3]
          exact ih s _
        · rw [if_neg h3]
          rcases hv : evictEntryF env s e with ⟨s1, r⟩
          have hp1 := evictEntryF_HPres H env s e
          rw [hv] at hp1
          cases r with
          | thrown e2 => exact hp1
          | ok u => exact HPres_trans H _ _ _ hp1 (ih s1 queue)

lemma limitHeapLoop_HPres (H : Int) (env : Env) (threshold : Int) :
    ∀ fuel queue s, HPres H s.map ((limitHeapLoop env threshold fuel queue s).1).map := by
  intro fuel
  induction fuel with
  | zero =>
    intro queue s
    cases queue with
    | nil =>
      rw [limitHeapLoop]
      exact HPres_refl H s.map
    | cons e0 qrest =>
      rw [limitHeapLoop]
      exact HPres_refl H s.map
  | succ f ih =>
    intro queue s
    cases queue with
    | nil =>
      rw [limitHeapLoop]
      exact HPres_refl H s.map
    | cons e0 qrest =>
      rw [limitHeapLoop]
      cases hh : heapMin (e0 :: qrest) with
      | none => exact HPres_refl H s.map
      | some p =>
        obtain ⟨entry, q1⟩ := p
        dsimp only
        by_cases h1 : ¬ hasEntry s entry.tx.hash = true
        · rw [if_pos h1]
          exact HPres_refl H s.map
        · rw [if_neg h1]
          rcases hv : evictEntryF env s entry with ⟨s1, r⟩
          have hp1 := evictEntryF_HPres H env s entry
          rw [hv] at hp1
          cases r with
          | thrown e2 => exact hp1
          | ok u =>
            dsimp only
            by_cases h2 : s1.size ≤ threshold
            · rw [if_pos h2]
              exact hp1
            · rw [if_neg h2]
              exact HPres_trans H _ _ _ hp1 (ih q1 s1)

lemma limitSizeF_HPres (H : Int) (env : Env) (s : St) (added : Hash) :
    HPres H s.map ((limitSizeF env s added).1).map := by
  unfold limitSizeF
  by_cases h1 : s.size ≤ env.opts.maxSize
  · rw [if_pos h1]
    exact HPres_refl H s.map
  · rw [if_neg h1]
    rcases hE : limitExpiryLoop env (s.map.map Prod.snd) s [] with ⟨s1, queue, r1⟩
    have hp1 := limitExpiryLoop_HPres H env (s.map.map Prod.snd) s []
    rw [hE] at hp1
    cases r1 with
    | thrown e => exact hp1
    | ok u =>
      dsimp only
      by_cases h2 : s1.size ≤ env.opts.maxSize - env.opts.maxSize / 10
      · rw [if_pos h2]
        exact hp1
      · rw [if_neg h2]
        rcases hHp : limitHeapLoop env (env.opts.maxSize - env.opts.maxSize / 10)
            queue.length queue s1 with ⟨s2, r2⟩
        have hp2 := limitHeapLoop_HPres H env
          (env.opts.maxSize - env.opts.maxSize / 10) queue.length queue s1
        rw [hHp] at hp2
        cases r2 with
        | thrown e => exact HPres_trans H _ _ _ hp1 hp2
        | ok u2 => exact HPres_trans H _ _ _ hp1 hp2

lemma handleLoopP_HPres (H : Int)
    (insertL : St → TX → Int → St × Res (Option (List Hash)))
    (hIns : ∀ s tx id, HPres H s.map (((insertL s tx id)).1).map) :
    ∀ resolved s, HPres H s.map ((handleLoopP insertL resolved s).1).map := by
  intro resolved
  induction resolved with
  | nil =>
    intro s
    rw [handleLoopP]
    exact HPres_refl H s.map
  | cons o rest ih =>
    intro s
    rw [handleLoopP]
    cases ht : o.toTX with
    | none =>
      try dsimp only
      exact ih s
    | some tx =>
      dsimp only
      rcases hI : insertL s tx o.id with ⟨s1, r⟩
      have hp1 := hIns s tx o.id
      rw [hI] at hp1
      cases r with
      | thrown e =>
        dsimp only
        by_cases hv : e.isVerifyError = true
        · rw [if_pos hv]
          have hmap2 : (pushEv (if ¬ tx.witness = true ∧ ¬ e.isMalleated = true then
              rejectsAdd s1 tx.hash else s1) (Ev.badOrphan e o.id)).map = s1.map := by
            by_cases hc : ¬ tx.witness = true ∧ ¬ e.isMalleated = true
            · rw [if_pos hc]
              exact (rejectsAdd_fields s1 tx.hash).1
            · rw [if_neg hc]
              rfl
          refine HPres_trans H _ _ _ hp1 ?_
          refine HPres_trans H _ _ _ (HPres_of_eq H _ _ hmap2) (ih _)
        · rw [if_neg hv]
          exact hp1
      | ok opt =>
        cases opt with
        | none =>
          dsimp only
          exact HPres_trans H _ _ _ hp1 (ih s1)
        | some lst =>
          cases lst with
          | nil =>
            dsimp only
            exact HPres_trans H _ _ _ hp1 (ih s1)
          | cons mh mt =>
            dsimp only
            rcases hR : removeOrphanF s1 tx.hash with ⟨s2, r2⟩
            have hmap2 := removeOrphanF_map s1 tx.hash
            rw [hR] at hmap2
            cases r2 with
            | thrown e =>
              dsimp only
              exact HPres_trans H _ _ _ hp1 (HPres_of_eq H _ _ hmap2)
            | ok b =>
              dsimp only
              refine HPres_trans H _ _ _ hp1 ?_
              exact HPres_trans H _ _ _ (HPres_of_eq H _ _ hmap2) (ih s2)

lemma handleOrphansP_HPres (H : Int)
    (insertL : St → TX → Int → St × Res (Option (List Hash)))
    (hIns : ∀ s tx id, HPres H s.map (((insertL s tx id)).1).map)
    (s : St) (parent : TX) :
    HPres H s.map ((handleOrphansP insertL s parent).1).map := by
  unfold handleOrphansP
  rcases hR : resolveOrphansF s parent.hash with ⟨s1, r⟩
  have hmap := resolveOrphansF_map s parent.hash
  rw [hR] at hmap
  cases r with
  | thrown e => exact HPres_of_eq H _ _ hmap
  | ok resolved =>
    dsimp only
    exact HPres_trans H _ _ _ (HPres_of_eq H _ _ hmap)
      (handleLoopP_HPres H insertL hIns resolved s1)

lemma addEntryP_HPres (H : Int)
    (insertL : St → TX → Int → St × Res (Option (List Hash)))
    (hIns : ∀ s tx id, HPres H s.map (((insertL s tx id)).1).map)
    (env : Env) (s : St) (entry : Entry) (view : CoinView)
    (hent : entry.height = H) :
    HPres H s.map ((addEntryP insertL env s entry view).1).map := by
  unfold addEntryP
  rcases hT : trackEntryF s entry with ⟨s1, r⟩
  have hp1 := trackEntryF_HPres H s entry hent
  rw [hT] at hp1
  cases r with
  | thrown e => exact hp1
  | ok u =>
    dsimp only
    have hp2 := updateAncestorsF_HPres H env.opts.maxAncestors s1 entry addFee
      (fun p c => rfl)
    refine HPres_trans H _ _ _ hp1 ?_
    refine HPres_trans H _ _ _ hp2 ?_
    exact handleOrphansP_HPres H insertL hIns _ entry.tx

lemma insertTXP_HPres (H : Int)
    (insertL : St → TX → Int → St × Res (Option (List Hash)))
    (hIns : ∀ s tx id, HPres H s.map (((insertL s tx id)).1).map)
    (env : Env) (s : St) (tx : TX) (id : Int) (hH : H = env.chainHeight) :
    HPres H s.map ((insertTXP insertL env s tx id).1).map := by
  unfold insertTXP
  by_cases c0 : tx.mutable = true
  · rw [if_pos c0]
    exact HPres_refl H s.map
  · rw [if_neg c0]
    dsimp only
    by_cases c1 : ¬ (tx.checkSanity env.chainHeight).1 = true
    · rw [if_pos c1]
      exact HPres_refl H s.map
    · rw [if_neg c1]
      by_cases c2 : tx.coinbase = true
      · rw [if_pos c2]
        exact HPres_refl H s.map
      · rw [if_neg c2]
        by_cases c3 : env.opts.requireStandard = true ∧ ¬ env.hasCSV = true ∧
            2 ≤ tx.version
        · rw [if_pos c3]
          exact HPres_refl H s.map
        · rw [if_neg c3]
          by_cases c4 : ¬ env.chainHasWitness = true ∧
              ¬ env.opts.prematureWitness = true ∧ tx.witness = true
          · rw [if_pos c4]
            exact HPres_refl H s.map
          · rw [if_neg c4]
            by_cases c5 : env.opts.requireStandard = true ∧
                ¬ (tx.checkStandard).1 = true
            · rw [if_pos c5]
              exact HPres_refl H s.map
            · rw [if_neg c5]
              by_cases c6 : env.opts.requireStandard = true ∧
                  ¬ env.opts.replaceByFee = true ∧ tx.rbf = true
              · rw [if_pos c6]
                exact HPres_refl H s.map
              · rw [if_neg c6]
                by_cases c7 : ¬ env.verifyFinal tx = true
                · rw [if_pos c7]
                  exact HPres_refl H s.map
                · rw [if_neg c7]
                  by_cases c8 : existsTX env s tx.hash = true
                  · rw [if_pos c8]
                    exact HPres_refl H s.map
                  · rw [if_neg c8]
                    by_cases c9 : env.hasCoins tx = true
                    · rw [if_pos c9]
                      exact HPres_refl H s.map
                    · rw [if_neg c9]
                      by_cases c10 : isDoubleSpend s tx = true
                      · rw [if_pos c10]
                        exact HPres_refl H s.map
                      · rw [if_neg c10]
                        try dsimp only
                        rcases hM : maybeOrphanF env s tx (getCoinViewF env s tx)
                            id with ⟨s1, r1⟩
                        have hm1 := maybeOrphanF_map env s tx
                          (getCoinViewF env s tx) id
                        rw [hM] at hm1
                        cases r1 with
                        | thrown e => exact HPres_of_eq H _ _ hm1
                        | ok opt =>
                          cases opt with
                          | some missing => exact HPres_of_eq H _ _ hm1
                          | none =>
                            dsimp only
                            rcases hV : verifyF env s1
                                (MempoolEntry.fromTX env tx env.chainHeight)
                                (getCoinViewF env s tx) with ⟨s2, r2⟩
                            have hm2 := verifyF_map env s1
                              (MempoolEntry.fromTX env tx env.chainHeight)
                              (getCoinViewF env s tx)
                            rw [hV] at hm2
                            have hp01 : HPres H s.map s2.map :=
                              HPres_of_eq H _ _ (hm2.trans hm1)
                            cases r2 with
                            | thrown e => exact hp01
                            | ok u =>
                              dsimp only
                              rcases hA : addEntryP insertL env s2
                                  (MempoolEntry.fromTX env tx env.chainHeight)
                                  (getCoinViewF env s tx) with ⟨s3, r3⟩
                              have hp3 := addEntryP_HPres H insertL hIns env s2
                                (MempoolEntry.fromTX env tx env.chainHeight)
                                (getCoinViewF env s tx) hH.symm
                              rw [hA] at hp3
                              have hp02 : HPres H s.map s3.map :=
                                HPres_trans H _ _ _ hp01 hp3
                              cases r3 with
                              | thrown e => exact hp02
                              | ok u3 =>
                                dsimp only
                                rcases hL : limitSizeF env s3 tx.hash with ⟨s4, r4⟩
                                have hp4 := limitSizeF_HPres H env s3 tx.hash
                                rw [hL] at hp4
                                have hp03 : HPres H s.map s4.map :=
                                  HPres_trans H _ _ _ hp02 hp4
                                cases r4 with
                                | thrown e => exact hp03
                                | ok full =>
                                  dsimp only
                                  by_cases hf : full = true
                                  · rw [if_pos hf]
                                    exact hp03
                                  · rw [if_neg hf]
                                    exact hp03

lemma insertTXF_HPres (env : Env) :
    ∀ fuel s tx id,
      HPres env.chainHeight s.map ((insertTXF env fuel s tx id).1).map := by
  intro fuel
  induction fuel with
  | zero =>
    intro s tx id
    rw [insertTXF]
    exact HPres_refl env.chainHeight s.map
  | succ f ih =>
    intro s tx id
    rw [insertTXF]
    exact insertTXP_HPres env.chainHeight (insertTXF env f)
      (fun s2 tx2 id2 => ih s2 tx2 id2) env s tx id rfl

lemma removeBlockLoop_HPres (env : Env) (fuel : Nat) :
    ∀ txs s, HPres env.chainHeight s.map ((removeBlockLoop env fuel txs s)).map := by
  intro txs
  induction txs with
  | nil =>
    intro s
    rw [removeBlockLoop]
    exact HPres_refl env.chainHeight s.map
  | cons tx rest ih =>
    intro s
    rw [removeBlockLoop]
    by_cases hhe : hasEntry s tx.hash = true
    · rw [if_pos hhe]
      exact ih s
    · rw [if_neg hhe]
      rcases hI : insertTXF env fuel s tx (-1) with ⟨s1, r⟩
      have hp1 := insertTXF_HPres env fuel s tx (-1)
      rw [hI] at hp1
      cases r with
      | thrown e =>
        dsimp only
        exact HPres_trans env.chainHeight _ _ _ hp1 (ih _)
      | ok v =>
        dsimp only
        exact HPres_trans env.chainHeight _ _ _ hp1 (ih _)

/-- A reinstateable transaction spending chain output (70, 0). -/
def txR : TX := { TX0 with hash := 12, inputs := [⟨⟨70, 0⟩, 4294967295⟩] }

/-- C7 (amended): `_removeBlock(block, txs)` replays each non-coinbase
transaction absent from the pool through `insertTX(tx, -1)`, where `-1` is
the originating peer id, not a height: every entry present in the pool map
after the call either survived from before the call with its height
unchanged, or was constructed at the CURRENT chain height. The call always
completes normally and sets `tip = block.prevBlock` (resetting the reject
filter when the pool was non-empty). -/
theorem removeBlock_reinstates :
    (∀ env fuel s b txs, (removeBlockF env fuel s b txs).2 = .ok () ∧
      ((removeBlockF env fuel s b txs).1).tip = b.prevBlock) ∧
    (∀ env fuel s b txs, s.map.isEmpty = false →
      (removeBlockF env fuel s b txs).1 =
        { removeBlockLoop env fuel (txs.drop 1) s with
            rejects := []
            tip := b.prevBlock }) ∧
    (∀ env fuel tx rest s s1 v, hasEntry s tx.hash = false →
      insertTXF env fuel s tx (-1) = (s1, .ok v) →
      removeBlockLoop env fuel (tx :: rest) s =
        removeBlockLoop env fuel rest (pushEv s1 (.unconfirmed tx.hash))) ∧
    (∀ env fuel txs s h e1,
      mget ((removeBlockLoop env fuel txs s)).map h = some e1 →
        (∃ e, mget s.map h = some e ∧ e1.height = e.height) ∨
          e1.height = env.chainHeight) := by
  refine ⟨?_, ?_, ?_, ?_⟩
  · intro env fuel s b txs
    unfold removeBlockF
    by_cases he : s.map.isEmpty = true
    · rw [if_pos he]
      exact ⟨rfl, rfl⟩
    · rw [if_neg he]
      exact ⟨rfl, rfl⟩
  · intro env fuel s b txs he
    unfold removeBlockF
    rw [if_neg (by rw [he]; simp)]
  · intro env fuel tx rest s s1 v hhe hI
    rw [removeBlockLoop, if_neg (by rw [hhe]; simp), hI]
  · intro env fuel txs s h e1 hg
    exact removeBlockLoop_HPres env fuel txs s h e1 hg

/-- C7 (counterexample): disconnecting a block over the pool `sC1` (chain
height 5) reinstates `txR` as an entry constructed at height 5, the current
chain height — not at height −1 as the claim asserts. -/
theorem removeBlock_height_ce :
    mget ((removeBlockF env0 2 sC1 blkB [TX0, txR]).1).map txR.hash =
      some (MempoolEntry.fromTX env0 txR 5) ∧
    (MempoolEntry.fromTX env0 txR 5).height = env0.chainHeight ∧
    env0.chainHeight = 5 ∧ (5 : Int) ≠ -1 := by
  refine ⟨rfl, rfl, rfl, by decide⟩

/-- C7 (witness): the amended parts at the same concrete disconnect — normal
completion with `tip = prevBlock`, the new entry's height traced to the
chain height, and the loop stepping through `insertTX(txR, -1)`. -/
theorem removeBlock_reinstates_witness :
    ((removeBlockF env0 2 sC1 blkB [TX0, txR]).2 = .ok () ∧
      ((removeBlockF env0 2 sC1 blkB [TX0, txR]).1).tip = blkB.prevBlock) ∧
    ((∃ e, mget sC1.map 12 = some e ∧
        (MempoolEntry.fromTX env0 txR 5).height = e.height) ∨
      (MempoolEntry.fromTX env0 txR 5).height = env0.chainHeight) ∧
    removeBlockLoop env0 2 [txR] sC1 =
      removeBlockLoop env0 2 []
        (pushEv (insertTXF env0 2 sC1 txR (-1)).1 (.unconfirmed txR.hash)) := by
  refine ⟨removeBlock_reinstates.1 env0 2 sC1 blkB [TX0, txR], ?_, ?_⟩
  · exact removeBlock_reinstates.2.2.2 env0 2 [txR] sC1 12
      (MempoolEntry.fromTX env0 txR 5) rfl
  · exact removeBlock_reinstates.2.2.1 env0 2 txR [] sC1
      (insertTXF env0 2 sC1 txR (-1)).1 none rfl rfl

end WMCC
